import Mathlib

/-!
Verification development for the pitch representation and notation
interpretation subsystem of scale-workshop-core.

The development shallowly embeds the TypeScript sources:
* `monzo.ts` (the `ExtendedMonzo` hybrid numeric type),
* `quantity.ts` (the dimensional `Quantity` layer),
* `pythagorean.ts`, `fjs.ts` (interval construction and comma derivation),
* `warts.ts` (patent val construction),
* the expression evaluator (`evaluateExpression` / `evaluateAST`).

Modelling conventions:
* `Fraction` values (exact rationals of fraction.js) become `ℚ`.
* The floating point `cents` offsets become exact real numbers `ℝ`; the
  cents-free code paths never depend on rounding, and the comma-search
  algorithms are analysed over `ℝ`.
* JavaScript exceptions become `Except Err` / `Option` results.
* A few operations of the revision of `monzo.ts` that is referenced by
  `quantity.ts` but whose source is not part of the snapshot are modelled
  from the specification; each such definition carries a doc comment
  starting with `Modelled from the spec:`.
-/

namespace SW

set_option maxHeartbeats 1000000
set_option maxRecDepth 10000

/-- The fixed table of all 1229 primes below 10000 (the `PRIMES` constant of the
`xen-dev-utils` dependency): the prime basis of the monzo vector part. -/
def PRIMES : List ℕ := [
  2, 3, 5, 7, 11, 13, 17, 19, 23, 29, 31, 37, 41, 43, 47, 53, 59, 61, 67, 71,
  73, 79, 83, 89, 97, 101, 103, 107, 109, 113, 127, 131, 137, 139, 149, 151, 157, 163, 167, 173,
  179, 181, 191, 193, 197, 199, 211, 223, 227, 229, 233, 239, 241, 251, 257, 263, 269, 271, 277, 281,
  283, 293, 307, 311, 313, 317, 331, 337, 347, 349, 353, 359, 367, 373, 379, 383, 389, 397, 401, 409,
  419, 421, 431, 433, 439, 443, 449, 457, 461, 463, 467, 479, 487, 491, 499, 503, 509, 521, 523, 541,
  547, 557, 563, 569, 571, 577, 587, 593, 599, 601, 607, 613, 617, 619, 631, 641, 643, 647, 653, 659,
  661, 673, 677, 683, 691, 701, 709, 719, 727, 733, 739, 743, 751, 757, 761, 769, 773, 787, 797, 809,
  811, 821, 823, 827, 829, 839, 853, 857, 859, 863, 877, 881, 883, 887, 907, 911, 919, 929, 937, 941,
  947, 953, 967, 971, 977, 983, 991, 997, 1009, 1013, 1019, 1021, 1031, 1033, 1039, 1049, 1051, 1061, 1063, 1069,
  1087, 1091, 1093, 1097, 1103, 1109, 1117, 1123, 1129, 1151, 1153, 1163, 1171, 1181, 1187, 1193, 1201, 1213, 1217, 1223,
  1229, 1231, 1237, 1249, 1259, 1277, 1279, 1283, 1289, 1291, 1297, 1301, 1303, 1307, 1319, 1321, 1327, 1361, 1367, 1373,
  1381, 1399, 1409, 1423, 1427, 1429, 1433, 1439, 1447, 1451, 1453, 1459, 1471, 1481, 1483, 1487, 1489, 1493, 1499, 1511,
  1523, 1531, 1543, 1549, 1553, 1559, 1567, 1571, 1579, 1583, 1597, 1601, 1607, 1609, 1613, 1619, 1621, 1627, 1637, 1657,
  1663, 1667, 1669, 1693, 1697, 1699, 1709, 1721, 1723, 1733, 1741, 1747, 1753, 1759, 1777, 1783, 1787, 1789, 1801, 1811,
  1823, 1831, 1847, 1861, 1867, 1871, 1873, 1877, 1879, 1889, 1901, 1907, 1913, 1931, 1933, 1949, 1951, 1973, 1979, 1987,
  1993, 1997, 1999, 2003, 2011, 2017, 2027, 2029, 2039, 2053, 2063, 2069, 2081, 2083, 2087, 2089, 2099, 2111, 2113, 2129,
  2131, 2137, 2141, 2143, 2153, 2161, 2179, 2203, 2207, 2213, 2221, 2237, 2239, 2243, 2251, 2267, 2269, 2273, 2281, 2287,
  2293, 2297, 2309, 2311, 2333, 2339, 2341, 2347, 2351, 2357, 2371, 2377, 2381, 2383, 2389, 2393, 2399, 2411, 2417, 2423,
  2437, 2441, 2447, 2459, 2467, 2473, 2477, 2503, 2521, 2531, 2539, 2543, 2549, 2551, 2557, 2579, 2591, 2593, 2609, 2617,
  2621, 2633, 2647, 2657, 2659, 2663, 2671, 2677, 2683, 2687, 2689, 2693, 2699, 2707, 2711, 2713, 2719, 2729, 2731, 2741,
  2749, 2753, 2767, 2777, 2789, 2791, 2797, 2801, 2803, 2819, 2833, 2837, 2843, 2851, 2857, 2861, 2879, 2887, 2897, 2903,
  2909, 2917, 2927, 2939, 2953, 2957, 2963, 2969, 2971, 2999, 3001, 3011, 3019, 3023, 3037, 3041, 3049, 3061, 3067, 3079,
  3083, 3089, 3109, 3119, 3121, 3137, 3163, 3167, 3169, 3181, 3187, 3191, 3203, 3209, 3217, 3221, 3229, 3251, 3253, 3257,
  3259, 3271, 3299, 3301, 3307, 3313, 3319, 3323, 3329, 3331, 3343, 3347, 3359, 3361, 3371, 3373, 3389, 3391, 3407, 3413,
  3433, 3449, 3457, 3461, 3463, 3467, 3469, 3491, 3499, 3511, 3517, 3527, 3529, 3533, 3539, 3541, 3547, 3557, 3559, 3571,
  3581, 3583, 3593, 3607, 3613, 3617, 3623, 3631, 3637, 3643, 3659, 3671, 3673, 3677, 3691, 3697, 3701, 3709, 3719, 3727,
  3733, 3739, 3761, 3767, 3769, 3779, 3793, 3797, 3803, 3821, 3823, 3833, 3847, 3851, 3853, 3863, 3877, 3881, 3889, 3907,
  3911, 3917, 3919, 3923, 3929, 3931, 3943, 3947, 3967, 3989, 4001, 4003, 4007, 4013, 4019, 4021, 4027, 4049, 4051, 4057,
  4073, 4079, 4091, 4093, 4099, 4111, 4127, 4129, 4133, 4139, 4153, 4157, 4159, 4177, 4201, 4211, 4217, 4219, 4229, 4231,
  4241, 4243, 4253, 4259, 4261, 4271, 4273, 4283, 4289, 4297, 4327, 4337, 4339, 4349, 4357, 4363, 4373, 4391, 4397, 4409,
  4421, 4423, 4441, 4447, 4451, 4457, 4463, 4481, 4483, 4493, 4507, 4513, 4517, 4519, 4523, 4547, 4549, 4561, 4567, 4583,
  4591, 4597, 4603, 4621, 4637, 4639, 4643, 4649, 4651, 4657, 4663, 4673, 4679, 4691, 4703, 4721, 4723, 4729, 4733, 4751,
  4759, 4783, 4787, 4789, 4793, 4799, 4801, 4813, 4817, 4831, 4861, 4871, 4877, 4889, 4903, 4909, 4919, 4931, 4933, 4937,
  4943, 4951, 4957, 4967, 4969, 4973, 4987, 4993, 4999, 5003, 5009, 5011, 5021, 5023, 5039, 5051, 5059, 5077, 5081, 5087,
  5099, 5101, 5107, 5113, 5119, 5147, 5153, 5167, 5171, 5179, 5189, 5197, 5209, 5227, 5231, 5233, 5237, 5261, 5273, 5279,
  5281, 5297, 5303, 5309, 5323, 5333, 5347, 5351, 5381, 5387, 5393, 5399, 5407, 5413, 5417, 5419, 5431, 5437, 5441, 5443,
  5449, 5471, 5477, 5479, 5483, 5501, 5503, 5507, 5519, 5521, 5527, 5531, 5557, 5563, 5569, 5573, 5581, 5591, 5623, 5639,
  5641, 5647, 5651, 5653, 5657, 5659, 5669, 5683, 5689, 5693, 5701, 5711, 5717, 5737, 5741, 5743, 5749, 5779, 5783, 5791,
  5801, 5807, 5813, 5821, 5827, 5839, 5843, 5849, 5851, 5857, 5861, 5867, 5869, 5879, 5881, 5897, 5903, 5923, 5927, 5939,
  5953, 5981, 5987, 6007, 6011, 6029, 6037, 6043, 6047, 6053, 6067, 6073, 6079, 6089, 6091, 6101, 6113, 6121, 6131, 6133,
  6143, 6151, 6163, 6173, 6197, 6199, 6203, 6211, 6217, 6221, 6229, 6247, 6257, 6263, 6269, 6271, 6277, 6287, 6299, 6301,
  6311, 6317, 6323, 6329, 6337, 6343, 6353, 6359, 6361, 6367, 6373, 6379, 6389, 6397, 6421, 6427, 6449, 6451, 6469, 6473,
  6481, 6491, 6521, 6529, 6547, 6551, 6553, 6563, 6569, 6571, 6577, 6581, 6599, 6607, 6619, 6637, 6653, 6659, 6661, 6673,
  6679, 6689, 6691, 6701, 6703, 6709, 6719, 6733, 6737, 6761, 6763, 6779, 6781, 6791, 6793, 6803, 6823, 6827, 6829, 6833,
  6841, 6857, 6863, 6869, 6871, 6883, 6899, 6907, 6911, 6917, 6947, 6949, 6959, 6961, 6967, 6971, 6977, 6983, 6991, 6997,
  7001, 7013, 7019, 7027, 7039, 7043, 7057, 7069, 7079, 7103, 7109, 7121, 7127, 7129, 7151, 7159, 7177, 7187, 7193, 7207,
  7211, 7213, 7219, 7229, 7237, 7243, 7247, 7253, 7283, 7297, 7307, 7309, 7321, 7331, 7333, 7349, 7351, 7369, 7393, 7411,
  7417, 7433, 7451, 7457, 7459, 7477, 7481, 7487, 7489, 7499, 7507, 7517, 7523, 7529, 7537, 7541, 7547, 7549, 7559, 7561,
  7573, 7577, 7583, 7589, 7591, 7603, 7607, 7621, 7639, 7643, 7649, 7669, 7673, 7681, 7687, 7691, 7699, 7703, 7717, 7723,
  7727, 7741, 7753, 7757, 7759, 7789, 7793, 7817, 7823, 7829, 7841, 7853, 7867, 7873, 7877, 7879, 7883, 7901, 7907, 7919,
  7927, 7933, 7937, 7949, 7951, 7963, 7993, 8009, 8011, 8017, 8039, 8053, 8059, 8069, 8081, 8087, 8089, 8093, 8101, 8111,
  8117, 8123, 8147, 8161, 8167, 8171, 8179, 8191, 8209, 8219, 8221, 8231, 8233, 8237, 8243, 8263, 8269, 8273, 8287, 8291,
  8293, 8297, 8311, 8317, 8329, 8353, 8363, 8369, 8377, 8387, 8389, 8419, 8423, 8429, 8431, 8443, 8447, 8461, 8467, 8501,
  8513, 8521, 8527, 8537, 8539, 8543, 8563, 8573, 8581, 8597, 8599, 8609, 8623, 8627, 8629, 8641, 8647, 8663, 8669, 8677,
  8681, 8689, 8693, 8699, 8707, 8713, 8719, 8731, 8737, 8741, 8747, 8753, 8761, 8779, 8783, 8803, 8807, 8819, 8821, 8831,
  8837, 8839, 8849, 8861, 8863, 8867, 8887, 8893, 8923, 8929, 8933, 8941, 8951, 8963, 8969, 8971, 8999, 9001, 9007, 9011,
  9013, 9029, 9041, 9043, 9049, 9059, 9067, 9091, 9103, 9109, 9127, 9133, 9137, 9151, 9157, 9161, 9173, 9181, 9187, 9199,
  9203, 9209, 9221, 9227, 9239, 9241, 9257, 9277, 9281, 9283, 9293, 9311, 9319, 9323, 9337, 9341, 9343, 9349, 9371, 9377,
  9391, 9397, 9403, 9413, 9419, 9421, 9431, 9433, 9437, 9439, 9461, 9463, 9467, 9473, 9479, 9491, 9497, 9511, 9521, 9533,
  9539, 9547, 9551, 9587, 9601, 9613, 9619, 9623, 9629, 9631, 9643, 9649, 9661, 9677, 9679, 9689, 9697, 9719, 9721, 9733,
  9739, 9743, 9749, 9767, 9769, 9781, 9787, 9791, 9803, 9811, 9817, 9829, 9833, 9839, 9851, 9857, 9859, 9871, 9883, 9887,
  9901, 9907, 9923, 9929, 9931, 9941, 9949, 9967, 9973]

/-- Bounded trial division: remove up to `fuel` factors of `p` from `m`.
The division loop of `toMonzoAndResidual` runs at most `m` times, so fuel `m`
makes the recursion structural (and hence kernel-reducible). -/
def removePowAux : ℕ → ℕ → ℕ → ℕ × ℕ
  | 0, _, m => (0, m)
  | fuel + 1, p, m =>
    if 2 ≤ p ∧ m ≠ 0 ∧ p ∣ m then
      let r := removePowAux fuel p (m / p)
      (r.1 + 1, r.2)
    else
      (0, m)

/-- Remove all factors of `p` from `m` by trial division, returning the
multiplicity and the remaining cofactor (the inner loop of the
`toMonzoAndResidual` factorization of `xen-dev-utils`). -/
def removePow (p m : ℕ) : ℕ × ℕ := removePowAux m p m

theorem removePowAux_spec (fuel p m : ℕ) (hm : m ≤ fuel) :
    p ^ (removePowAux fuel p m).1 * (removePowAux fuel p m).2 = m := by
  induction fuel generalizing m with
  | zero =>
    interval_cases m
    simp [removePowAux]
  | succ fuel ih =>
    rw [removePowAux]
    split
    · rename_i h
      have hlt : m / p < m := Nat.div_lt_self (Nat.pos_of_ne_zero h.2.1) h.1
      have hrec := ih (m / p) (by omega)
      simp only [pow_succ]
      calc p ^ (removePowAux fuel p (m / p)).1 * p * (removePowAux fuel p (m / p)).2
          = p * (p ^ (removePowAux fuel p (m / p)).1 * (removePowAux fuel p (m / p)).2) := by
            ring
        _ = p * (m / p) := by rw [hrec]
        _ = m := Nat.mul_div_cancel' h.2.2
    · simp

/-- Reconstruction: trial division factors `m` as `p ^ multiplicity * rest`. -/
theorem removePow_spec (p m : ℕ) : p ^ (removePow p m).1 * (removePow p m).2 = m :=
  removePowAux_spec m p m le_rfl

/-- Exponents of each prime of `ps` in `m`, with the unfactored rest
(the loop of `toMonzoAndResidual` over the natural `m`). -/
def natExponents (ps : List ℕ) (m : ℕ) : List ℕ × ℕ :=
  match ps with
  | [] => ([], m)
  | p :: rest =>
    let e := removePow p m
    let es := natExponents rest e.2
    (e.1 :: es.1, es.2)

/-- Product `Π ps[i] ^ es[i]` used to state reconstruction. -/
def listProdPow (ps : List ℕ) (es : List ℕ) : ℕ :=
  (List.zipWith (fun p e => p ^ e) ps es).prod

theorem natExponents_length (ps : List ℕ) (m : ℕ) :
    (natExponents ps m).1.length = ps.length := by
  induction ps generalizing m with
  | nil => rfl
  | cons p rest ih => simp [natExponents, ih]

/-- Reconstruction: the exponent vector together with the rest recovers `m`. -/
theorem natExponents_spec (ps : List ℕ) (m : ℕ) :
    listProdPow ps (natExponents ps m).1 * (natExponents ps m).2 = m := by
  induction ps generalizing m with
  | nil => simp [natExponents, listProdPow]
  | cons p rest ih =>
    simp only [natExponents, listProdPow, List.zipWith_cons_cons, List.prod_cons]
    rw [mul_assoc]
    rw [show (List.zipWith (fun p e => p ^ e) rest (natExponents rest (removePow p m).2).1).prod *
      (natExponents rest (removePow p m).2).2 = (removePow p m).2 from ih _]
    exact removePow_spec p m

/-- Exact `d`-th root of a natural number, if one exists
(the rational-root search of fraction.js `Fraction.pow`). -/
def natRoot (n d : ℕ) : Option ℕ :=
  (List.range (n + 2)).find? (fun k => k ^ d = n)

/-- Rational exponentiation `b ^ e`, returning `none` when the result is
irrational (fraction.js `Fraction.pow`, which returns `null` in that case). -/
def qpow (b e : ℚ) : Option ℚ :=
  if e.den = 1 then some (b ^ e.num)
  else if b < 0 then none
  else
    match natRoot b.num.natAbs e.den, natRoot b.den e.den with
    | some rn, some rd => some (((rn : ℚ) / (rd : ℚ)) ^ e.num)
    | _, _ => none

theorem qpow_intCast (b : ℚ) (n : ℤ) : qpow b (n : ℚ) = some (b ^ n) := by
  simp [qpow, Rat.den_intCast, Rat.num_intCast]

/-- Embedding of `xen-dev-utils` `toMonzoAndResidual`: factor a rational over
the first `numberOfComponents` primes of the table, returning the vector of
(integer-valued) exponents and the unfactored residual. -/
def toMonzoAndResidual (q : ℚ) (numberOfComponents : ℕ) : List ℚ × ℚ :=
  let ps := PRIMES.take numberOfComponents
  let ne := natExponents ps q.num.natAbs
  let de := natExponents ps q.den
  (List.zipWith (fun a b : ℕ => (a : ℚ) - (b : ℚ)) ne.1 de.1,
   (if q.num < 0 then -1 else 1) * (ne.2 : ℚ) / (de.2 : ℚ))

theorem toMonzoAndResidual_length (q : ℚ) (N : ℕ) :
    (toMonzoAndResidual q N).1.length = (PRIMES.take N).length := by
  simp [toMonzoAndResidual, natExponents_length]

/-- The vector part of `toMonzoAndResidual` as a list of integers (the
difference of numerator and denominator exponents before the cast to
fractions). -/
def intExponents (q : ℚ) (N : ℕ) : List ℤ :=
  List.zipWith (fun a b : ℕ => (a : ℤ) - (b : ℤ))
    (natExponents (PRIMES.take N) q.num.natAbs).1
    (natExponents (PRIMES.take N) q.den).1

/-- Greatest common divisor of a list of integers (`0` for the empty list);
`gcdIntList es = 1` says the exponent list is not a perfect power pattern. -/
def gcdIntList (es : List ℤ) : ℕ := es.foldr (fun e g => Nat.gcd e.natAbs g) 0

theorem toMonzoAndResidual_fst_eq (q : ℚ) (N : ℕ) :
    (toMonzoAndResidual q N).1 = (intExponents q N).map (fun z : ℤ => (z : ℚ)) := by
  have hfun : (fun (a b : ℕ) => ((((a : ℤ) - (b : ℤ)) : ℤ) : ℚ)) =
      (fun a b : ℕ => (a : ℚ) - (b : ℚ)) := by
    funext a b
    push_cast
    ring
  simp only [toMonzoAndResidual, intExponents, List.map_zipWith, hfun]

/-- Error kinds of the subsystem.  JavaScript throws `Error` objects with
message strings; each distinct throw site gets a constructor. -/
inductive Err where
  /-- 'Domains must match in addition.' / 'Domains must match in modulo.' -/
  | domainMismatch : Err
  /-- 'Exponents must match in addition' / 'Exponents must match in modulo' -/
  | exponentMismatch : Err
  /-- 'Incompatible domains' -/
  | incompatibleDomains : Err
  /-- 'Pitch exponents must add to zero in dot product' -/
  | pitchDotExponents : Err
  /-- 'Only scalar powers supported' -/
  | onlyScalarPowers : Err
  /-- 'Cannot exponentiate in the pitch domain' -/
  | cannotExponentiatePitch : Err
  /-- 'Only scalars can be reduced.' -/
  | onlyScalarReduce : Err
  /-- 'The scalar domain must have an exponent of 0' -/
  | scalarExponent : Err
  /-- 'Modulo by unison' -/
  | moduloByUnison : Err
  /-- 'Unable to convert irrational number to fraction' -/
  | irrational : Err
  /-- 'Unable to convert non-algebraic number to equal temperament' -/
  | nonAlgebraic : Err
  /-- 'Unable to convert non-representable fraction to equal temperament' -/
  | nonRepresentable : Err
  /-- 'Unable to convert equave to monzo' -/
  | equaveToMonzo : Err
  /-- 'Unrecognized variable $...' -/
  | unboundVariable (name : String) : Err
  /-- 'Out of primes' -/
  | outOfPrimes : Err
  /-- 'Invalid prime limit' -/
  | invalidPrimeLimit : Err
  /-- 'Unable to locate NFJS region' -/
  | nfjsRegion : Err
  /-- Marker of the denotational semantics for the unbounded search loop of
      `masterAlgorithm` finding no match (the JS loop would not return). -/
  | nonTerminating : Err
  /-- 'Only time domain quantities can be normalized to frequencies' -/
  | normalizeNonTime : Err
  /-- 'Base frequency required for this conversion' -/
  | baseFrequencyRequired : Err
  /-- 'Can only convert scalar midi to frequency' -/
  | mtofScalar : Err
  /-- 'Can only interprete scalars as nanometers' -/
  | nmtofScalar : Err
  /-- `Unrecognized nominal '...'` -/
  | unrecognizedNominal : Err
  /-- `Unrecognized accidental '...'` -/
  | unrecognizedAccidental : Err
  /-- 'Unrecognized function ...' / 'Unrecognized operator ...' /
      'Unrecognized expression ...' -/
  | unrecognized : Err
  /-- A JavaScript `TypeError` from the non-null assertions
      `context.get('#')!` / `context.get(index)!` when the key is absent. -/
  | typeError : Err
  deriving DecidableEq, Repr

/-- `xen-dev-utils` `valueToCents`: `1200 * log2 value`. -/
noncomputable def valueToCents (value : ℝ) : ℝ := 1200 * Real.logb 2 value

/-- `xen-dev-utils` `centsToValue`: `2 ^ (cents / 1200)`. -/
noncomputable def centsToValue (cents : ℝ) : ℝ := (2 : ℝ) ^ (cents / 1200)

/-- `xen-dev-utils` `PRIME_CENTS`: the size of each prime of the table in
cents (the floating point table is modelled by the exact reals). -/
noncomputable def PRIME_CENTS (i : ℕ) : ℝ := valueToCents (PRIMES.getD i 0)

/-- Fractional monzo with multiplicative residue and arbitrary cents offset
(`ExtendedMonzo` of `monzo.ts`): the value represented is
`2 ^ (cents / 1200) * residual * Π PRIMES[i] ^ vector[i]`. -/
structure ExtendedMonzo where
  vector : List ℚ
  residual : ℚ
  cents : ℝ

namespace ExtendedMonzo

/-- The two-argument constructor `new ExtendedMonzo(vector, residual)`
(cents defaulting to 0). -/
def mk2 (vector : List ℚ) (residual : ℚ) : ExtendedMonzo := ⟨vector, residual, 0⟩

/-- The one-argument constructor `new ExtendedMonzo(vector)`
(residual defaulting to 1, cents to 0). -/
def mk1 (vector : List ℚ) : ExtendedMonzo := ⟨vector, 1, 0⟩

/-- `ExtendedMonzo.fromFraction`. -/
def fromFraction (fraction : ℚ) (numberOfComponents : ℕ) : ExtendedMonzo :=
  mk2 (toMonzoAndResidual fraction numberOfComponents).1
    (toMonzoAndResidual fraction numberOfComponents).2

/-- `ExtendedMonzo.fromCents`: zero vector part and the given cents offset. -/
def fromCents (cents : ℝ) (numberOfComponents : ℕ) : ExtendedMonzo :=
  ⟨List.replicate numberOfComponents 0, 1, cents⟩

/-- `ExtendedMonzo.fromValue`: zero vector part, value converted to cents. -/
noncomputable def fromValue (value : ℝ) (numberOfComponents : ℕ) : ExtendedMonzo :=
  ⟨List.replicate numberOfComponents 0, 1, valueToCents value⟩

/-- `numberOfComponents` getter. -/
def numberOfComponents (m : ExtendedMonzo) : ℕ := m.vector.length

/-- Product `Π PRIMES[i] ^ vector[i]` over the vector part, `none` if some
factor is irrational (the `forEach` loop of `toFraction`). -/
def powFactors (ps : List ℕ) (v : List ℚ) : Option ℚ :=
  match v, ps with
  | [], _ => some 1
  | c :: cs, p :: rest => do
    let f ← qpow (p : ℚ) c
    let r ← powFactors rest cs
    pure (f * r)
  | _ :: _, [] => none

/-- `ExtendedMonzo.toFraction`: exact conversion to a rational, failing on a
nonzero cents offset or an irrational prime power. -/
noncomputable def toFraction (m : ExtendedMonzo) : Except Err ℚ :=
  open scoped Classical in
  if m.cents ≠ 0 then .error .irrational
  else
    match powFactors PRIMES m.vector with
    | none => .error .irrational
    | some p => .ok (m.residual * p)

theorem PRIMES_all_ne : PRIMES.all (fun p => decide (p ≠ 0)) = true := rfl

theorem PRIMES_ne_zero : ∀ p ∈ PRIMES, p ≠ 0 := by
  have h := PRIMES_all_ne
  rw [List.all_eq_true] at h
  intro p hp
  exact of_decide_eq_true (h p hp)

theorem listProdPow_take (ps es : List ℕ) (N : ℕ) (h : es.length ≤ N) :
    listProdPow (ps.take N) es = listProdPow ps es := by
  induction es generalizing ps N with
  | nil => simp [listProdPow]
  | cons a es ih =>
    cases ps with
    | nil => simp [listProdPow]
    | cons p ps =>
      cases N with
      | zero => simp at h
      | succ n =>
        simp only [List.take_succ_cons, listProdPow, List.zipWith_cons_cons, List.prod_cons]
        have := ih ps n (Nat.le_of_succ_le_succ h)
        simp only [listProdPow] at this
        rw [this]

theorem powFactors_sub (ps : List ℕ) (es ds : List ℕ)
    (hlen : es.length = ds.length) (hle : es.length ≤ ps.length)
    (hp : ∀ p ∈ ps, p ≠ 0) :
    ExtendedMonzo.powFactors ps (List.zipWith (fun a b : ℕ => (a : ℚ) - (b : ℚ)) es ds) =
      some ((listProdPow ps es : ℚ) / (listProdPow ps ds : ℚ)) := by
  induction es generalizing ds ps with
  | nil =>
    have : ds = [] := List.length_eq_zero.mp hlen.symm
    subst this
    simp [ExtendedMonzo.powFactors, listProdPow]
  | cons a es ih =>
    cases ds with
    | nil => simp at hlen
    | cons b ds =>
      cases ps with
      | nil => simp at hle
      | cons p ps =>
        have hcast : (a : ℚ) - (b : ℚ) = (((a : ℤ) - (b : ℤ) : ℤ) : ℚ) := by push_cast; ring
        have hpne : (p : ℚ) ≠ 0 := by
          exact_mod_cast hp p (List.mem_cons_self p ps)
        simp only [List.zipWith_cons_cons, ExtendedMonzo.powFactors, hcast, qpow_intCast,
          Option.bind_eq_bind, Option.some_bind]
        rw [ih ps ds (by simpa using hlen) (by simpa using hle)
          (fun q hq => hp q (List.mem_cons_of_mem p hq))]
        simp only [Option.some_bind, Option.some.injEq, listProdPow,
          List.zipWith_cons_cons, List.prod_cons]
        push_cast
        rw [zpow_sub₀ hpne]
        field_simp

theorem listProdPow_ne_zero (ps es : List ℕ) (hp : ∀ p ∈ ps, p ≠ 0) :
    listProdPow ps es ≠ 0 := by
  induction es generalizing ps with
  | nil => simp [listProdPow]
  | cons a es ih =>
    cases ps with
    | nil => simp [listProdPow]
    | cons p ps =>
      simp only [listProdPow, List.zipWith_cons_cons, List.prod_cons]
      exact mul_ne_zero (pow_ne_zero a (hp p (List.mem_cons_self p ps)))
        (ih ps (fun q hq => hp q (List.mem_cons_of_mem p hq)))

/-- Round-trip core: factoring a rational over any prefix of the prime table
and multiplying back recovers the rational exactly. -/
theorem toFraction_fromFraction (q : ℚ) (N : ℕ) (hN : N ≤ PRIMES.length) :
    (ExtendedMonzo.fromFraction q N).toFraction = .ok q := by
  set ps := PRIMES.take N with hps
  have hps_sub : ∀ p ∈ ps, p ≠ 0 := fun p hp => PRIMES_ne_zero p (List.mem_of_mem_take hp)
  have hlen_ps : ps.length = N := by
    rw [hps, List.length_take]
    exact min_eq_left hN
  obtain ⟨en, hen⟩ : ∃ x, natExponents ps q.num.natAbs = x := ⟨_, rfl⟩
  obtain ⟨ed, hed⟩ : ∃ x, natExponents ps q.den = x := ⟨_, rfl⟩
  have hnum : listProdPow ps en.1 * en.2 = q.num.natAbs := by
    rw [← hen]; exact natExponents_spec ps q.num.natAbs
  have hden : listProdPow ps ed.1 * ed.2 = q.den := by
    rw [← hed]; exact natExponents_spec ps q.den
  have hlen1 : en.1.length = ps.length := by rw [← hen]; exact natExponents_length ps _
  have hlen2 : ed.1.length = ps.length := by rw [← hed]; exact natExponents_length ps _
  have hfac := powFactors_sub PRIMES en.1 ed.1 (hlen1.trans hlen2.symm)
    (by rw [hlen1, hlen_ps]; exact hN) PRIMES_ne_zero
  rw [show listProdPow PRIMES en.1 = listProdPow ps en.1 from
      (listProdPow_take PRIMES en.1 N (by rw [hlen1, hlen_ps])).symm,
    show listProdPow PRIMES ed.1 = listProdPow ps ed.1 from
      (listProdPow_take PRIMES ed.1 N (by rw [hlen2, hlen_ps])).symm] at hfac
  have hnumQ : (listProdPow ps en.1 : ℚ) * (en.2 : ℚ) = (q.num.natAbs : ℚ) := by
    exact_mod_cast congrArg (Nat.cast : ℕ → ℚ) hnum
  have hdenQ : (listProdPow ps ed.1 : ℚ) * (ed.2 : ℚ) = (q.den : ℚ) := by
    exact_mod_cast congrArg (Nat.cast : ℕ → ℚ) hden
  have hPb : (listProdPow ps ed.1 : ℚ) ≠ 0 := by
    exact_mod_cast listProdPow_ne_zero ps ed.1 hps_sub
  have hdenne : (q.den : ℚ) ≠ 0 := by exact_mod_cast q.den_ne_zero
  have hed2 : (ed.2 : ℚ) ≠ 0 := by
    intro h0
    rw [h0, mul_zero] at hdenQ
    exact hdenne hdenQ.symm
  simp only [ExtendedMonzo.fromFraction, ExtendedMonzo.mk2, ExtendedMonzo.toFraction,
    toMonzoAndResidual, ← hps, hen, hed, ne_eq, not_true_eq_false, if_false]
  rw [hfac]
  simp only [Except.ok.injEq]
  have key : ∀ s : ℚ, s * (en.2 : ℚ) / (ed.2 : ℚ) *
      ((listProdPow ps en.1 : ℚ) / (listProdPow ps ed.1 : ℚ)) =
      s * (q.num.natAbs : ℚ) / (q.den : ℚ) := by
    intro s
    rw [← hnumQ, ← hdenQ]
    field_simp
    ring
  split_ifs with hneg
  · rw [key]
    have h1 : ((q.num.natAbs : ℕ) : ℚ) = -(q.num : ℚ) := by
      rw [Int.cast_natAbs]
      push_cast
      exact abs_of_neg (by exact_mod_cast hneg)
    rw [h1]
    rw [show (-1 : ℚ) * -(q.num : ℚ) / (q.den : ℚ) = (q.num : ℚ) / (q.den : ℚ) by ring]
    exact Rat.num_div_den q
  · rw [key]
    have h1 : ((q.num.natAbs : ℕ) : ℚ) = (q.num : ℚ) := by
      rw [Int.cast_natAbs]
      push_cast
      exact abs_of_nonneg (by exact_mod_cast le_of_not_lt hneg)
    rw [h1, one_mul]
    exact Rat.num_div_den q

end ExtendedMonzo

/-- JavaScript `Math.round`: round half toward positive infinity. -/
noncomputable def jsRound (x : ℝ) : ℤ := ⌊x + 1 / 2⌋

/-- JavaScript `Math.trunc`: round toward zero. -/
noncomputable def jsTrunc (x : ℝ) : ℤ := if 0 ≤ x then ⌊x⌋ else ⌈x⌉

/-- Number of leading primes needed to factor `m` completely, if the table
suffices (`PRIMES.indexOf(primeLimit(..)) + 1` of `xen-dev-utils`,
`none` playing the role of the out-of-table `Infinity` limit). -/
def primeLimitLen (ps : List ℕ) (m : ℕ) : Option ℕ :=
  if m = 1 then some 0
  else
    match ps with
    | [] => none
    | p :: rest => (primeLimitLen rest (removePow p m).2).map (· + 1)

namespace ExtendedMonzo

/-- Cents contribution of the vector part starting at prime index `i`
(the `forEach` sum of `totalCents`). -/
noncomputable def vectorCents : List ℚ → ℕ → ℝ
  | [], _ => 0
  | c :: cs, i => (c : ℝ) * PRIME_CENTS i + vectorCents cs (i + 1)

/-- `ExtendedMonzo.totalCents`: the canonical size in cents. -/
noncomputable def totalCents (m : ExtendedMonzo) : ℝ :=
  m.cents + valueToCents (m.residual : ℝ) + vectorCents m.vector 0

/-- `ExtendedMonzo.valueOf`: the frequency-space ratio. -/
noncomputable def valueOf (m : ExtendedMonzo) : ℝ := centsToValue m.totalCents

/-- `ExtendedMonzo.neg`: pitch-space negation, i.e. the frequency-space
reciprocal. -/
def neg (m : ExtendedMonzo) : ExtendedMonzo :=
  ⟨m.vector.map (fun c => -c), m.residual⁻¹, -m.cents⟩

/-- `ExtendedMonzo.add`: combination in pitch-space, i.e. the frequency-space
product.  The source recurses once to make `this` the longer operand; the two
branches below are the two unfoldings of that recursion. -/
def add (a b : ExtendedMonzo) : ExtendedMonzo :=
  if a.vector.length < b.vector.length then
    ⟨(List.zipWith (· + ·) b.vector a.vector) ++ b.vector.drop a.vector.length,
      b.residual * a.residual, b.cents + a.cents⟩
  else
    ⟨(List.zipWith (· + ·) a.vector b.vector) ++ a.vector.drop b.vector.length,
      a.residual * b.residual, a.cents + b.cents⟩

/-- `ExtendedMonzo.sub`: pitch-space difference, i.e. frequency-space
division, zero-extending the shorter vector. -/
def sub (a b : ExtendedMonzo) : ExtendedMonzo :=
  if a.vector.length ≤ b.vector.length then
    ⟨(List.zipWith (· - ·) a.vector b.vector) ++
        (b.vector.drop a.vector.length).map (fun c => -c),
      a.residual / b.residual, a.cents - b.cents⟩
  else
    ⟨(List.zipWith (· - ·) a.vector b.vector) ++ a.vector.drop b.vector.length,
      a.residual / b.residual, a.cents - b.cents⟩

/-- `ExtendedMonzo.mul`: rescaling in pitch-space by a rational scalar.  When
the residual's power is irrational its value is folded into the cents part. -/
noncomputable def mul (m : ExtendedMonzo) (scalar : ℚ) : ExtendedMonzo :=
  match qpow m.residual scalar with
  | some r => ⟨m.vector.map (· * scalar), r, m.cents * (scalar : ℝ)⟩
  | none =>
    ⟨m.vector.map (· * scalar), 1, (m.cents + valueToCents (m.residual : ℝ)) * (scalar : ℝ)⟩

/-- `ExtendedMonzo.div`: inverse rescaling in pitch-space by a rational
scalar. -/
noncomputable def div (m : ExtendedMonzo) (scalar : ℚ) : ExtendedMonzo :=
  match qpow m.residual scalar⁻¹ with
  | some r => ⟨m.vector.map (· / scalar), r, m.cents / (scalar : ℝ)⟩
  | none =>
    ⟨m.vector.map (· / scalar), 1, (m.cents + valueToCents (m.residual : ℝ)) / (scalar : ℝ)⟩

/-- `ExtendedMonzo.stretch`: multiply the total size, storing the whole
delta in the cents offset. -/
noncomputable def stretch (m : ExtendedMonzo) (scalar : ℝ) : ExtendedMonzo :=
  ⟨m.vector, m.residual, m.cents + m.totalCents * (scalar - 1)⟩

/-- `ExtendedMonzo.abs`: pitch-space absolute value. -/
noncomputable def eabs (m : ExtendedMonzo) : ExtendedMonzo :=
  open scoped Classical in
  if m.totalCents < 0 then m.neg else m

/-- `ExtendedMonzo.mod`: truncated modulus with respect to another value's
total cents (consistent with fraction.js). -/
noncomputable def emod (m other : ExtendedMonzo) : ExtendedMonzo :=
  m.sub (other.mul (jsTrunc (m.totalCents / other.totalCents) : ℚ))

/-- `ExtendedMonzo.mmod`: floored modulus; fails on a zero-size operand. -/
noncomputable def mmod (m other : ExtendedMonzo) : Except Err ExtendedMonzo :=
  open scoped Classical in
  if other.totalCents = 0 then .error .moduloByUnison
  else .ok (m.sub (other.mul (⌊m.totalCents / other.totalCents⌋ : ℚ)))

/-- `ExtendedMonzo.isFractional`. -/
def isFractional (m : ExtendedMonzo) : Prop :=
  m.cents = 0 ∧ ∀ c ∈ m.vector, c.den = 1

/-- `ExtendedMonzo.isEqualTemperament`. -/
def isEqualTemperament (m : ExtendedMonzo) : Prop :=
  m.cents = 0 ∧ m.residual = 1

/-- `ExtendedMonzo.toEqualTemperament`: exact conversion to a pitch-space
fraction of a frequency-space equave. -/
noncomputable def toEqualTemperament (m : ExtendedMonzo) : Except Err (ℚ × ℚ) :=
  open scoped Classical in
  if m.cents ≠ 0 then .error .nonAlgebraic
  else if m.residual ≠ 1 then .error .nonRepresentable
  else if m.vector.length = 0 then .ok (0, 1)
  else
    let denominator : ℕ := m.vector.foldl (fun acc c => Nat.lcm acc c.den) 1
    let numerator : ℕ :=
      m.vector.foldl (fun acc c => Nat.gcd acc (c * (denominator : ℚ)).num.natAbs) 0
    if numerator = 0 then .ok (0, 1)
    else
      let fractionOfEquave : ℚ := (numerator : ℚ) / (denominator : ℚ)
      match (m.div fractionOfEquave).toFraction with
      | .error e => .error e
      | .ok equave =>
        if equave < 1 then .ok (-fractionOfEquave, equave⁻¹)
        else .ok (fractionOfEquave, equave)

/-- `ExtendedMonzo.fromEqualTemperament`: `fractionOfEquave` steps of an
equal division of `equave` (default the octave), the number of components
defaulting to the prime limit of the equave. -/
def fromEqualTemperament (fractionOfEquave : ℚ) (equave : Option ℚ := none)
    (numberOfComponents : Option ℕ := none) : Except Err ExtendedMonzo :=
  let equave := equave.getD 2
  let n := numberOfComponents.getD
    ((primeLimitLen PRIMES (equave.num.natAbs * equave.den)).getD 0)
  let ev := toMonzoAndResidual equave n
  if ev.2 ≠ 1 then .error .equaveToMonzo
  else .ok (mk1 (ev.1.map (fun component => fractionOfEquave * component)))

/-! The operations below belong to the revision of `monzo.ts` used by
`quantity.ts` and the evaluator, whose source is not part of the snapshot;
they are modelled from the specification. -/

/-- Modelled from the spec: numeric negation used by non-pitch domains
("other domains ... negate numerically"); negating the residual negates the
represented value exactly. -/
def linNeg (m : ExtendedMonzo) : ExtendedMonzo := ⟨m.vector, -m.residual, m.cents⟩

/-- Modelled from the spec: numeric reciprocal used by non-pitch domains
("other domains invert ... numerically"); on the product representation this
coincides with pitch-space negation. -/
def linInverse (m : ExtendedMonzo) : ExtendedMonzo := m.neg

/-- Modelled from the spec: geometric (pitch-space) inversion of a pitch
quantity, "negate vector/cents as in §4.1". -/
def geometricInverse (m : ExtendedMonzo) : ExtendedMonzo := m.neg

/-- Modelled from the spec: numeric addition used by non-pitch domains ("all
other domains add numerically"): exact on fractions, otherwise the sum of the
represented values is stored as cents. -/
noncomputable def linAdd (a b : ExtendedMonzo) : ExtendedMonzo :=
  match a.toFraction, b.toFraction with
  | .ok x, .ok y => fromFraction (x + y) (max a.numberOfComponents b.numberOfComponents)
  | _, _ => fromValue (a.valueOf + b.valueOf) (max a.numberOfComponents b.numberOfComponents)

/-- Modelled from the spec: the dot product of the vector parts, "mapping an
interval through a val". -/
def dot (a b : ExtendedMonzo) : ℚ :=
  (List.zipWith (· * ·) a.vector b.vector).sum

/-- Modelled from the spec: exponentiation by another value, i.e.
`scale(scalar)` with a "rational or real" scalar: the rational case is exact
pitch-space rescaling, the irrational case folds everything into cents. -/
noncomputable def empow (m o : ExtendedMonzo) : ExtendedMonzo :=
  match o.toFraction with
  | .ok q => m.mul q
  | .error _ => fromCents (m.totalCents * o.valueOf) m.numberOfComponents

/-- Modelled from the spec: logarithm of one value in the base of another,
represented via the cents offset (`x log y = totalCents x / totalCents y`). -/
noncomputable def elog (m o : ExtendedMonzo) : ExtendedMonzo :=
  fromValue (m.totalCents / o.totalCents) m.numberOfComponents

/-- Modelled from the spec: geometric reduction, "equivalent to `mmod`". -/
noncomputable def reduceBy (m o : ExtendedMonzo) : Except Err ExtendedMonzo :=
  m.mmod o

end ExtendedMonzo

/-- Modelled from the spec: the module default for the number of vector
components (`getNumberOfComponents()` of the revision of `monzo.ts` that is
not part of the snapshot; the vector length is "truncated at a caller-chosen
length N"). -/
def NUMBER_OF_COMPONENTS : ℕ := 9

/-- The `Domain` union type of `quantity.ts`. -/
inductive Domain where
  | time : Domain
  | scalar : Domain
  | pitch : Domain
  deriving DecidableEq, Repr

/-- A dimensional quantity (`Quantity` of `quantity.ts`): an exact pitch
value tagged with a domain and a rational exponent of the base unit. -/
structure Quantity where
  value : ExtendedMonzo
  domain : Domain
  exponent : ℚ

namespace Quantity

/-- The `Quantity` constructor: a zero exponent forces the scalar domain and
the scalar domain rejects nonzero exponents. -/
def mk' (value : ExtendedMonzo) (domain : Domain) (exponent : ℚ) :
    Except Err Quantity :=
  let domain := if exponent = 0 then .scalar else domain
  if domain = .scalar ∧ exponent ≠ 0 then .error .scalarExponent
  else .ok ⟨value, domain, exponent⟩

/-- `Quantity.neg`: pitch negation is the frequency-space reciprocal
(`value.inverse()`), other domains negate numerically (`value.neg()`). -/
def neg (q : Quantity) : Except Err Quantity :=
  if q.domain = .pitch then mk' q.value.linInverse q.domain q.exponent
  else mk' q.value.linNeg q.domain q.exponent

/-- `Quantity.inverse`: pitch inverts geometrically, other domains invert
numerically; either way the exponent flips sign. -/
def inverse (q : Quantity) : Except Err Quantity :=
  if q.domain = .pitch then mk' q.value.geometricInverse q.domain (-q.exponent)
  else mk' q.value.linInverse q.domain (-q.exponent)

/-- `Quantity.add`: requires matching domain and exponent; in the pitch
domain "addition" is frequency-space multiplication of the values
(`value.mul`, the pitch-space combination `add` of the included monzo
source), all other domains add numerically (`value.add`). -/
noncomputable def add (q other : Quantity) : Except Err Quantity :=
  if other.domain ≠ q.domain then .error .domainMismatch
  else if other.exponent ≠ q.exponent then .error .exponentMismatch
  else if q.domain = .pitch then mk' (q.value.add other.value) q.domain q.exponent
  else mk' (q.value.linAdd other.value) q.domain q.exponent

/-- `Quantity.sub`: `this.add(other.neg())`. -/
noncomputable def sub (q other : Quantity) : Except Err Quantity := do
  q.add (← other.neg)

/-- The pitch-first half of `Quantity.mul`: exponentiation by a scalar, or
the dot product against another pitch quantity with opposite exponent. -/
noncomputable def mulPitchFirst (q other : Quantity) : Except Err Quantity :=
  if other.exponent = 0 then mk' (q.value.empow other.value) q.domain q.exponent
  else if other.domain ≠ .pitch then .error .incompatibleDomains
  else if q.exponent + other.exponent ≠ 0 then .error .pitchDotExponents
  else mk' (ExtendedMonzo.fromFraction (q.value.dot other.value) NUMBER_OF_COMPONENTS)
    .scalar 0

/-- `Quantity.mul`: pitch quantities are exponentiated by scalars or dotted
against opposite-exponent pitch quantities; otherwise the values multiply in
frequency-space (`value.mul`) and the exponents add, a scalar operand
inheriting the other domain. -/
noncomputable def mul (q other : Quantity) : Except Err Quantity :=
  if q.domain = .pitch then mulPitchFirst q other
  else if other.domain = .pitch then mulPitchFirst other q
  else
    let domain := if q.domain = .scalar then other.domain else q.domain
    mk' (q.value.add other.value) domain (q.exponent + other.exponent)

/-- `Quantity.div`: a ratio of same-exponent pitch quantities collapses to
the plain scalar ratio of their cents sizes; otherwise
`this.mul(other.inverse())`. -/
noncomputable def div (q other : Quantity) : Except Err Quantity :=
  if q.domain = .pitch ∧ other.domain = .pitch ∧ q.exponent = other.exponent then
    mk' (ExtendedMonzo.fromValue (q.value.totalCents / other.value.totalCents)
      NUMBER_OF_COMPONENTS) .scalar 0
  else do
    q.mul (← other.inverse)

/-- `Quantity.pow`: only scalar powers are supported and pitch quantities
cannot be exponentiated; a nonzero exponent is multiplied by the (rational)
power. -/
noncomputable def pow (q other : Quantity) : Except Err Quantity :=
  if other.exponent ≠ 0 then .error .onlyScalarPowers
  else if q.domain = .pitch then .error .cannotExponentiatePitch
  else do
    let exponent ←
      if q.exponent = 0 then pure q.exponent
      else do pure (q.exponent * (← other.value.toFraction))
    mk' (q.value.empow other.value) q.domain exponent

/-- `Quantity.log`: requires scalar exponents on both sides. -/
noncomputable def log (q other : Quantity) : Except Err Quantity :=
  if q.exponent ≠ 0 ∨ other.exponent ≠ 0 then .error .onlyScalarPowers
  else mk' (q.value.elog other.value) q.domain q.exponent

/-- `Quantity.mod`: requires matching domain and exponent; pitch uses
geometric reduction (`value.reduce`), other domains use the floored modulus
(`value.mmod`). -/
noncomputable def mod (q other : Quantity) : Except Err Quantity :=
  if other.domain ≠ q.domain then .error .domainMismatch
  else if other.exponent ≠ q.exponent then .error .exponentMismatch
  else if q.domain = .pitch then do
    mk' (← q.value.reduceBy other.value) q.domain q.exponent
  else do
    mk' (← q.value.mmod other.value) q.domain q.exponent

/-- `Quantity.reduce`: only scalars can be reduced. -/
noncomputable def reduce (q other : Quantity) : Except Err Quantity :=
  if q.domain ≠ .scalar ∨ other.domain ≠ .scalar then .error .onlyScalarReduce
  else do
    mk' (← q.value.reduceBy other.value) q.domain q.exponent

end Quantity

/-- `normalizeFrequency`: raise a time-domain quantity to the power that
makes it a plain frequency (exponent `-1`). -/
noncomputable def normalizeFrequency (quantity : Quantity) : Except Err Quantity :=
  if quantity.domain ≠ .time then .error .normalizeNonTime
  else Quantity.mk' (quantity.value.mul (-quantity.exponent⁻¹)) .time (-1)

/-- `ratio`: convert a quantity to a frequency ratio (a pitch collapses to a
scalar, scalars pass through, a time quantity needs a base frequency). -/
noncomputable def ratio (quantity : Quantity) (baseFrequency : Option Quantity := none) :
    Except Err Quantity :=
  if quantity.domain = .pitch then Quantity.mk' quantity.value .scalar 0
  else if quantity.exponent = 0 then .ok quantity
  else
    match baseFrequency with
    | none => .error .baseFrequencyRequired
    | some base => do (← normalizeFrequency quantity).div (← normalizeFrequency base)

/-- `frequency`: convert a quantity to a frequency (time normalizes, others
scale the base frequency by their ratio). -/
noncomputable def frequency (quantity : Quantity) (baseFrequency : Option Quantity := none) :
    Except Err Quantity :=
  if quantity.domain = .time then normalizeFrequency quantity
  else
    match baseFrequency with
    | none => .error .baseFrequencyRequired
    | some base => do (← normalizeFrequency base).mul (← ratio quantity)

/-- `pitch`: convert a quantity to the pitch domain.  The source recurses
through `ratio`; since `ratio` always returns a pitch or an exponent-zero
quantity, one unfolding of the recursion suffices and the remaining
(unreachable) case reports an error. -/
noncomputable def pitch (quantity : Quantity) (baseFrequency : Option Quantity := none) :
    Except Err Quantity :=
  if quantity.domain = .pitch then .ok quantity
  else if quantity.exponent = 0 then Quantity.mk' quantity.value .pitch 1
  else do
    let r ← ratio quantity baseFrequency
    if r.domain = .pitch then .ok r
    else if r.exponent = 0 then Quantity.mk' r.value .pitch 1
    else .error .unrecognized

/-- `xen-dev-utils` `mtof`: `440 * 2 ^ ((index - 69) / 12)`. -/
noncomputable def mtofValue (index : ℝ) : ℝ := 440 * (2 : ℝ) ^ ((index - 69) / 12)

/-- `xen-dev-utils` `ftom`: MIDI index and cents offset of a frequency. -/
noncomputable def ftomValue (freq : ℝ) : ℤ × ℝ :=
  let semitones := 69 + 12 * Real.logb 2 (freq / 440)
  let index := jsRound semitones
  (index, (semitones - (index : ℝ)) * 100)

/-- `mtof`: convert a scalar MIDI index to a frequency quantity. -/
noncomputable def mtof (index : Quantity) : Except Err Quantity :=
  if index.domain ≠ .scalar then .error .mtofScalar
  else Quantity.mk' (ExtendedMonzo.fromValue (mtofValue index.value.valueOf)
    NUMBER_OF_COMPONENTS) .time (-1)

/-- `ftom`: convert a frequency quantity to a scalar MIDI-like index. -/
noncomputable def ftom (freq : Quantity) (baseFrequency : Option Quantity := none) :
    Except Err Quantity := do
  let f ← frequency freq baseFrequency
  let io := ftomValue f.value.valueOf
  Quantity.mk' (ExtendedMonzo.fromValue ((io.1 : ℝ) + io.2 / 100) NUMBER_OF_COMPONENTS)
    .scalar 0

/-- The speed of light in nanometers per second. -/
def SPEED_OF_LIGHT : ℝ := 299792458e9

/-- `nmtof`: interpret a scalar as a wavelength in nanometers. -/
noncomputable def nmtof (wavelength : Quantity) : Except Err Quantity :=
  if wavelength.domain ≠ .scalar then .error .nmtofScalar
  else Quantity.mk' (ExtendedMonzo.fromValue (SPEED_OF_LIGHT / wavelength.value.valueOf)
    NUMBER_OF_COMPONENTS) .time (-1)

/-- The constant scalar `1/2` of `quantity.ts`. -/
def HALF : Quantity := ⟨ExtendedMonzo.fromFraction (1 / 2) NUMBER_OF_COMPONENTS, .scalar, 0⟩

/-- The constant scalar `1/3` of `quantity.ts`. -/
def THIRD : Quantity := ⟨ExtendedMonzo.fromFraction (1 / 3) NUMBER_OF_COMPONENTS, .scalar, 0⟩

/-- `sqrt`: `pow(1/2)`. -/
noncomputable def sqrt (quantity : Quantity) : Except Err Quantity := quantity.pow HALF

/-- `cbrt`: `pow(1/3)`. -/
noncomputable def cbrt (quantity : Quantity) : Except Err Quantity := quantity.pow THIRD

/-- The constructor invariant of `Quantity`: a zero exponent exactly
characterizes the scalar domain. -/
def Inv (q : Quantity) : Prop := q.exponent = 0 ↔ q.domain = .scalar

theorem mk'_inv {v : ExtendedMonzo} {d : Domain} {e : ℚ} {q : Quantity}
    (h : Quantity.mk' v d e = .ok q) : Inv q := by
  by_cases he : e = 0
  · simp only [Quantity.mk', he, ite_true, ne_eq, not_true_eq_false, and_false, ite_false] at h
    cases h
    simp [Inv, he]
  · simp only [Quantity.mk', he, ite_false, ne_eq, not_false_eq_true, and_true] at h
    by_cases hd : d = Domain.scalar
    · rw [if_pos hd] at h
      exact Except.noConfusion h
    · rw [if_neg hd] at h
      cases h
      simp [Inv, he, hd]

theorem neg_inv {a q : Quantity} (h : a.neg = .ok q) : Inv q := by
  simp only [Quantity.neg] at h
  split at h <;> exact mk'_inv h

theorem inverse_inv {a q : Quantity} (h : a.inverse = .ok q) : Inv q := by
  simp only [Quantity.inverse] at h
  split at h <;> exact mk'_inv h

theorem add_inv {a b q : Quantity} (h : a.add b = .ok q) : Inv q := by
  simp only [Quantity.add] at h
  split at h
  · exact Except.noConfusion h
  split at h
  · exact Except.noConfusion h
  split at h <;> exact mk'_inv h

theorem sub_inv {a b q : Quantity} (h : a.sub b = .ok q) : Inv q := by
  simp only [Quantity.sub, bind, Except.bind] at h
  split at h
  · exact Except.noConfusion h
  · exact add_inv h

theorem mulPitchFirst_inv {a b q : Quantity} (h : a.mulPitchFirst b = .ok q) : Inv q := by
  simp only [Quantity.mulPitchFirst] at h
  split at h
  · exact mk'_inv h
  split at h
  · exact Except.noConfusion h
  split at h
  · exact Except.noConfusion h
  exact mk'_inv h

theorem mul_inv {a b q : Quantity} (h : a.mul b = .ok q) : Inv q := by
  simp only [Quantity.mul] at h
  split at h
  · exact mulPitchFirst_inv h
  split at h
  · exact mulPitchFirst_inv h
  exact mk'_inv h

theorem div_inv {a b q : Quantity} (h : a.div b = .ok q) : Inv q := by
  simp only [Quantity.div, bind, Except.bind] at h
  split at h
  · exact mk'_inv h
  split at h
  · exact Except.noConfusion h
  · exact mul_inv h

theorem pow_inv {a b q : Quantity} (h : a.pow b = .ok q) : Inv q := by
  simp only [Quantity.pow, bind, Except.bind, pure, Except.pure] at h
  split at h
  · exact Except.noConfusion h
  split at h
  · exact Except.noConfusion h
  split at h
  · exact mk'_inv h
  · split at h
    · exact Except.noConfusion h
    · exact mk'_inv h

theorem log_inv {a b q : Quantity} (h : a.log b = .ok q) : Inv q := by
  simp only [Quantity.log] at h
  split at h
  · exact Except.noConfusion h
  · exact mk'_inv h

theorem mod_inv {a b q : Quantity} (h : a.mod b = .ok q) : Inv q := by
  simp only [Quantity.mod, bind, Except.bind] at h
  split at h
  · exact Except.noConfusion h
  split at h
  · exact Except.noConfusion h
  split at h
  · split at h
    · exact Except.noConfusion h
    · exact mk'_inv h
  · split at h
    · exact Except.noConfusion h
    · exact mk'_inv h

theorem reduce_inv {a b q : Quantity} (h : a.reduce b = .ok q) : Inv q := by
  simp only [Quantity.reduce, bind, Except.bind] at h
  split at h
  · exact Except.noConfusion h
  split at h
  · exact Except.noConfusion h
  · exact mk'_inv h

theorem vectorCents_add_zip (u v : List ℚ) (i : ℕ) (h : v.length ≤ u.length) :
    ExtendedMonzo.vectorCents (List.zipWith (· + ·) u v ++ u.drop v.length) i =
      ExtendedMonzo.vectorCents u i + ExtendedMonzo.vectorCents v i := by
  induction v generalizing u i with
  | nil => simp [ExtendedMonzo.vectorCents]
  | cons b vs ih =>
    cases u with
    | nil => simp at h
    | cons a us =>
      simp only [List.zipWith_cons_cons, List.length_cons, List.drop_succ_cons,
        List.cons_append, List.append_eq, ExtendedMonzo.vectorCents]
      rw [ih us (i + 1) (by simpa using h)]
      push_cast
      ring

theorem valueToCents_mul (x y : ℚ) (hx : x ≠ 0) (hy : y ≠ 0) :
    valueToCents ((x * y : ℚ) : ℝ) = valueToCents (x : ℝ) + valueToCents (y : ℝ) := by
  unfold valueToCents
  push_cast
  rw [Real.logb, Real.logb, Real.logb, Real.log_mul (by exact_mod_cast hx) (by exact_mod_cast hy)]
  ring

theorem totalCents_add (a b : ExtendedMonzo)
    (ha : a.residual ≠ 0) (hb : b.residual ≠ 0) :
    (a.add b).totalCents = a.totalCents + b.totalCents := by
  unfold ExtendedMonzo.add
  split
  · rename_i hlt
    simp only [ExtendedMonzo.totalCents]
    rw [vectorCents_add_zip b.vector a.vector 0 (le_of_lt hlt),
      valueToCents_mul _ _ hb ha]
    ring
  · rename_i hge
    simp only [ExtendedMonzo.totalCents]
    rw [vectorCents_add_zip a.vector b.vector 0 (le_of_not_lt hge),
      valueToCents_mul _ _ ha hb]
    ring

theorem valueOf_add (a b : ExtendedMonzo)
    (ha : a.residual ≠ 0) (hb : b.residual ≠ 0) :
    (a.add b).valueOf = a.valueOf * b.valueOf := by
  unfold ExtendedMonzo.valueOf centsToValue
  rw [totalCents_add a b ha hb, add_div, Real.rpow_add (by norm_num)]

theorem add_ok_pitch {a b : Quantity} (inva : Inv a)
    (hd : a.domain = b.domain) (he : a.exponent = b.exponent)
    (hp : a.domain = .pitch) :
    a.add b = .ok ⟨a.value.add b.value, a.domain, a.exponent⟩ := by
  have hexp : a.exponent ≠ 0 := by
    intro h0
    rw [inva.mp h0] at hp
    exact Domain.noConfusion hp
  unfold Quantity.add
  rw [if_neg (by simp [hd]), if_neg (by simp [he]), if_pos hp]
  simp only [Quantity.mk', if_neg hexp]
  rw [if_neg]
  rintro ⟨hs, -⟩
  rw [hp] at hs
  exact Domain.noConfusion hs

theorem add_ok_other {a b : Quantity} (inva : Inv a)
    (hd : a.domain = b.domain) (he : a.exponent = b.exponent)
    (hp : a.domain ≠ .pitch) :
    a.add b = .ok ⟨a.value.linAdd b.value, a.domain, a.exponent⟩ := by
  unfold Quantity.add
  rw [if_neg (by simp [hd]), if_neg (by simp [he]), if_neg hp]
  simp only [Quantity.mk']
  by_cases h0 : a.exponent = 0
  · simp only [if_pos h0]
    rw [if_neg (by rintro ⟨-, hne⟩; exact hne h0), inva.mp h0]
  · simp only [if_neg h0]
    rw [if_neg (by rintro ⟨hs, -⟩; exact h0 (inva.mpr hs))]

/-- `xen-dev-utils` `mmod` on rationals: mathematically consistent
(floored) modulo. -/
def qmmod (a b : ℚ) : ℚ := a - b * ⌊a / b⌋

/-- `PYTH_VECTORS` of `pythagorean.ts`: exponents of 2 and 3 for perfect and
neutral intervals, indexed by the interval's span modulo 7. -/
def PYTH_VECTORS : List (ℚ × ℚ) :=
  [(0, 0), (5/2, -3/2), (-1/2, 1/2), (2, -1), (-1, 1), (3/2, -1/2), (-3/2, 3/2)]

/-- `TONESPLITTER_VECTORS` of `pythagorean.ts`: neutral interordinal
intervals offset from Pythagoras by a semioctave. -/
def TONESPLITTER_VECTORS : List (ℚ × ℚ) :=
  [(-3/2, 1), (-9/2, 3), (7/2, -2), (1/2, 0), (-5/2, 2), (11/2, -3), (5/2, -1)]

/-- `NOMINAL_VECTORS` of `pythagorean.ts`. -/
def NOMINAL_VECTORS : List (Char × (ℚ × ℚ)) :=
  [('F', (2, -1)), ('C', (0, 0)), ('G', (-1, 1)), ('D', (-3, 2)),
   ('A', (-4, 3)), ('a', (-4, 3)), ('E', (-6, 4)), ('B', (-7, 5))]

/-- `ACCIDENTAL_VECTORS` of `pythagorean.ts`, including the semi-, demisemi-
and sesqui-sharp/flat entries added by the module-level loop (each scales the
base sharp/flat vector by 1/2, 1/4 and 3/4 respectively). -/
def ACCIDENTAL_VECTORS : List (List Char × (ℚ × ℚ)) :=
  [(['♮'], (0, 0)), (['='], (0, 0)),
   (['♯'], (-11, 7)), (['#'], (-11, 7)),
   (['♭'], (11, -7)), (['b'], (11, -7)),
   (['𝄪'], (-22, 14)), (['x'], (-22, 14)),
   (['𝄫'], (22, -14)),
   (['𝄲'], (-11/2, 7/2)), (['‡'], (-11/2, 7/2)), (['t'], (-11/2, 7/2)),
   (['𝄳'], (11/2, -7/2)), (['d'], (11/2, -7/2)),
   (['½', '♯'], (-11/2, 7/2)), (['s', '♯'], (-11/2, 7/2)),
   (['¼', '♯'], (-11/4, 7/4)), (['q', '♯'], (-11/4, 7/4)),
   (['¾', '♯'], (-33/4, 21/4)), (['Q', '♯'], (-33/4, 21/4)),
   (['½', '#'], (-11/2, 7/2)), (['s', '#'], (-11/2, 7/2)),
   (['¼', '#'], (-11/4, 7/4)), (['q', '#'], (-11/4, 7/4)),
   (['¾', '#'], (-33/4, 21/4)), (['Q', '#'], (-33/4, 21/4)),
   (['½', '♭'], (11/2, -7/2)), (['s', '♭'], (11/2, -7/2)),
   (['¼', '♭'], (11/4, -7/4)), (['q', '♭'], (11/4, -7/4)),
   (['¾', '♭'], (33/4, -21/4)), (['Q', '♭'], (33/4, -21/4)),
   (['½', 'b'], (11/2, -7/2)), (['s', 'b'], (11/2, -7/2)),
   (['¼', 'b'], (11/4, -7/4)), (['q', 'b'], (11/4, -7/4)),
   (['¾', 'b'], (33/4, -21/4)), (['Q', 'b'], (33/4, -21/4))]

/-- One pass of the quarter/semi-augmented prefix checks of `fromParts`:
if `quality` starts with the two-character prefix, strip it and shift the
vector. -/
def qualityPrefixStep (pre : List Char) (shift : ℚ × ℚ)
    (state : List Char × (ℚ × ℚ)) : List Char × (ℚ × ℚ) :=
  if pre.isPrefixOf state.1 then
    (state.1.drop pre.length, (state.2.1 + shift.1, state.2.2 + shift.2))
  else state

/-- `fromParts` of `pythagorean.ts`: the Pythagorean (or neutral /
tonesplitter) interval with the given quality and degree, as an extended
monzo over the primes 2 and 3.  The quality string is modelled as a list of
characters; the source's `while` loops stripping repeated `A`/`d` are the
take/drop of the leading run. -/
def fromParts (quality : List Char) (degree : ℚ) : ExtendedMonzo :=
  let span : ℚ := |degree| - 1
  let prototype := qmmod span 7
  let vector : ℚ × ℚ :=
    if prototype.den ≠ 1 then
      TONESPLITTER_VECTORS.getD (prototype - 1/2).num.toNat (0, 0)
    else
      PYTH_VECTORS.getD prototype.num.toNat (0, 0)
  -- Non-perfect intervals need an extra half-augmented widening
  let vector :=
    if vector.1.den ≠ 1 ∨ vector.2.den ≠ 1 then
      match quality.getLast? with
      | some 'A' => (vector.1 - 11/2, vector.2 + 7/2)
      | some 'd' => (vector.1 + 11/2, vector.2 - 7/2)
      | _ => vector
    else vector
  let vector := (vector.1 + (⌊span / 7⌋ : ℚ), vector.2)
  -- Quarter-augmented
  let st := qualityPrefixStep ['q', 'A'] (-11/4, 7/4) (quality, vector)
  let st := qualityPrefixStep ['¼', 'A'] (-11/4, 7/4) st
  let st := qualityPrefixStep ['q', 'd'] (11/4, -7/4) st
  let st := qualityPrefixStep ['¼', 'd'] (11/4, -7/4) st
  let st := qualityPrefixStep ['Q', 'A'] (-33/4, 21/4) st
  let st := qualityPrefixStep ['¾', 'A'] (-33/4, 21/4) st
  let st := qualityPrefixStep ['Q', 'd'] (33/4, -21/4) st
  let st := qualityPrefixStep ['¾', 'd'] (33/4, -21/4) st
  -- Semi-augmented
  let st := qualityPrefixStep ['s', 'A'] (-11/2, 7/2) st
  let st := qualityPrefixStep ['½', 'A'] (-11/2, 7/2) st
  let st := qualityPrefixStep ['s', 'd'] (11/2, -7/2) st
  let st := qualityPrefixStep ['½', 'd'] (11/2, -7/2) st
  -- (Fully) augmented: the `while` loops strip the leading run
  let nA := (st.1.takeWhile (· = 'A')).length
  let st := (st.1.drop nA, (st.2.1 - 11 * nA, st.2.2 + 7 * nA))
  let nd := (st.1.takeWhile (· = 'd')).length
  let st := (st.1.drop nd, (st.2.1 + 11 * nd, st.2.2 - 7 * nd))
  let q := st.1
  let vector := st.2
  let vector :=
    if q = ['M'] then (vector.1 - 11/2, vector.2 + 7/2)
    else if q = ['m'] then (vector.1 + 11/2, vector.2 - 7/2)
    else if q = ['s', 'M'] then (vector.1 - 11/4, vector.2 + 7/4)
    else if q = ['s', 'm'] then (vector.1 + 11/4, vector.2 - 7/4)
    else vector
  let result := ExtendedMonzo.mk1 [vector.1, vector.2]
  if degree < 0 then result.linInverse else result

/-- `absoluteFromParts` of `pythagorean.ts`: absolute pitch from nominal,
accidentals and octave; unknown nominals or accidentals fail. -/
def absoluteFromParts (nominal : Char) (accidentals : List (List Char))
    (octave : ℤ) : Except Err ExtendedMonzo :=
  match NOMINAL_VECTORS.find? (fun e => e.1 = nominal) with
  | none => .error .unrecognizedNominal
  | some e => do
    let v ← accidentals.foldlM (fun (v : ℚ × ℚ) acc =>
      match ACCIDENTAL_VECTORS.find? (fun e => e.1 = acc) with
      | none => .error .unrecognizedAccidental
      | some m => .ok (v.1 + m.2.1, v.2 + m.2.2)) e.2
    .ok (ExtendedMonzo.mk1 [v.1 + (octave : ℚ) - 4, v.2])

/-- `RADIUS_OF_TOLERANCE` of `fjs.ts`: the size of 65/63 in cents. -/
noncomputable def RADIUS_OF_TOLERANCE : ℝ := valueToCents (65 / 63)

/-- `NFJS_RADIUS` of `fjs.ts`. -/
noncomputable def NFJS_RADIUS : ℝ := 13.5 * PRIME_CENTS 0 - 8.5 * PRIME_CENTS 1

/-- `FIFTH` of `fjs.ts`: the size of 3/2 in cents. -/
noncomputable def FIFTH : ℝ := PRIME_CENTS 1 - PRIME_CENTS 0

/-- `xen-dev-utils` `mmod` on reals: floored modulo. -/
noncomputable def mmodR (a b : ℝ) : ℝ := a - b * ⌊a / b⌋

/-- `distance` of `fjs.ts`: circular distance modulo 1200, capped at 600. -/
noncomputable def distance (a b : ℝ) : ℝ := |mmodR (a - b + 600) 1200 - 600|

/-- The order in which the `masterAlgorithm` loop visits fifth counts:
`0, 1, -1, 2, -2, …`. -/
def seq (m : ℕ) : ℤ := if m % 2 = 1 then ((m : ℤ) + 1) / 2 else -((m : ℤ) / 2)

/-- Denotation of `masterAlgorithm` of `fjs.ts`: the first fifth count `k`
(in the visiting order `0, 1, -1, 2, -2, …`) whose stack lands within the
radius of tolerance of the target; `none` when the unbounded loop would
never return. -/
noncomputable def masterAlgorithm (primeCents : ℝ) : Option ℤ :=
  open scoped Classical in
  if h : ∃ m, distance primeCents (seq m * FIFTH) < RADIUS_OF_TOLERANCE then
    some (seq (Nat.find h))
  else none

/-- The whole-fifth loop of `neutralMaster` (`for k = kstart, remaining
iterations`): returns the signed fifth count on a hit. -/
noncomputable def neutralWholeLoop (primeCents : ℝ) : ℕ → ℕ → Option ℚ
  | _, 0 => none
  | k, r + 1 =>
    open scoped Classical in
    if distance primeCents (k * FIFTH) < NFJS_RADIUS then some k
    else if distance primeCents (-(k * FIFTH)) < NFJS_RADIUS then some (-(k : ℚ))
    else neutralWholeLoop primeCents (k + 1) r

/-- The half-fifth loop of `neutralMaster`: iteration `k` inspects the stack
of `k - 1/2` fifths. -/
noncomputable def neutralHalfLoop (primeCents : ℝ) : ℕ → ℕ → Option ℚ
  | _, 0 => none
  | k, r + 1 =>
    open scoped Classical in
    if distance primeCents (((k : ℝ) - 1/2) * FIFTH) < NFJS_RADIUS then some ((k : ℚ) - 1/2)
    else if distance primeCents (-(((k : ℝ) - 1/2) * FIFTH)) < NFJS_RADIUS then
      some (1/2 - (k : ℚ))
    else neutralHalfLoop primeCents (k + 1) r

/-- `neutralMaster` of `fjs.ts`: bounded search over whole then half fifth
stacks, `k = 1..6` each; fails with 'Unable to locate NFJS region'. -/
noncomputable def neutralMaster (primeCents : ℝ) : Except Err ℚ :=
  open scoped Classical in
  if distance primeCents 0 < NFJS_RADIUS then .ok 0
  else
    match neutralWholeLoop primeCents 1 6 with
    | some k => .ok k
    | none =>
      match neutralHalfLoop primeCents 1 6 with
      | some k => .ok k
      | none => .error .nfjsRegion

/-- The `while (commaCents > 600)` loop of `commaGenerator`: the loop
subtracts `PRIME_CENTS[0]` and decrements `twos` each iteration;
`PRIME_CENTS 0 = 1200` exactly (theorem `PRIME_CENTS_zero`), and the literal
keeps the recursion well-founded. -/
noncomputable def foldDown (c : ℝ) : ℝ × ℤ :=
  open scoped Classical in
  if h : c > 600 then
    let r := foldDown (c - 1200)
    (r.1, r.2 - 1)
  else (c, 0)
termination_by (⌈(c - 600) / 1200⌉).toNat
decreasing_by
  have h1 : (c - 1200 - 600) / 1200 = (c - 600) / 1200 - 1 := by ring
  rw [h1, Int.ceil_sub_one]
  have h2 : (0 : ℝ) < (c - 600) / 1200 := by
    apply div_pos (by linarith) (by norm_num)
  have h3 : (1 : ℤ) ≤ ⌈(c - 600) / 1200⌉ := by
    exact_mod_cast Int.le_ceil_iff.mpr (by simpa using h2)
  omega

/-- The `while (commaCents < -600)` loop of `commaGenerator`: adds
`PRIME_CENTS[0] = 1200` and increments `twos`. -/
noncomputable def foldUp (c : ℝ) : ℝ × ℤ :=
  open scoped Classical in
  if h : c < -600 then
    let r := foldUp (c + 1200)
    (r.1, r.2 + 1)
  else (c, 0)
termination_by (⌈(-600 - c) / 1200⌉).toNat
decreasing_by
  have h1 : (-600 - (c + 1200)) / 1200 = (-600 - c) / 1200 - 1 := by ring
  rw [h1, Int.ceil_sub_one]
  have h2 : (0 : ℝ) < (-600 - c) / 1200 := by
    apply div_pos (by linarith) (by norm_num)
  have h3 : (1 : ℤ) ≤ ⌈(-600 - c) / 1200⌉ := by
    exact_mod_cast Int.le_ceil_iff.mpr (by simpa using h2)
  omega

/-- The body of `commaGenerator` for prime index `i` once the master search
has returned the fifth count `k` (a half-integer for the neutral variant):
derive `threes = -k`, fold `twos` into the ±600 cent window, and build the
comma monzo. -/
noncomputable def commaFor (i : ℕ) (k : ℚ) : ExtendedMonzo :=
  let threes : ℚ := -k
  let commaCents : ℝ :=
    PRIME_CENTS i + (threes : ℝ) * PRIME_CENTS 0 + (threes : ℝ) * PRIME_CENTS 1
  let d := foldDown commaCents
  let u := foldUp d.1
  let twos : ℚ := threes + (d.2 : ℚ) + (u.2 : ℚ)
  ExtendedMonzo.mk1
    ((((List.replicate (i + 1) (0 : ℚ)).set 0 twos).set 1 threes).set i 1)

/-- Denotation of `getFormalComma` of `fjs.ts`: the lazily-extended cache
holds trivial commas at indices 0 and 1 and the generator's output beyond;
exhausting the prime table is 'Out of primes', and a non-returning master
search is marked `nonTerminating`. -/
noncomputable def getFormalComma (index : ℕ) : Except Err ExtendedMonzo :=
  if index < 2 then .ok (ExtendedMonzo.fromFraction 1 NUMBER_OF_COMPONENTS)
  else if index < PRIMES.length then
    match masterAlgorithm (PRIME_CENTS index) with
    | some k => .ok (commaFor index (k : ℚ))
    | none => .error .nonTerminating
  else .error .outOfPrimes

/-- Denotation of `getNeutralComma` of `fjs.ts`. -/
noncomputable def getNeutralComma (index : ℕ) : Except Err ExtendedMonzo :=
  if index < 2 then .ok (ExtendedMonzo.fromFraction 1 NUMBER_OF_COMPONENTS)
  else if index < PRIMES.length then
    match neutralMaster (PRIME_CENTS index) with
    | .ok k => .ok (commaFor index k)
    | .error e => .error e
  else .error .outOfPrimes

/-- `xen-dev-utils` `toMonzo`: prime exponents of a positive integer up to
its largest prime factor; `none` when the factorization leaves the table. -/
def toMonzoList (ps : List ℕ) (m : ℕ) : Option (List ℤ) :=
  if m = 1 then some []
  else
    match ps with
    | [] => none
    | p :: rest =>
      (toMonzoList rest (removePow p m).2).map (fun l => ((removePow p m).1 : ℤ) :: l)

/-- The comma-application loop of `toJustIntonation`: multiply (or divide)
`result` by `getComma(i) ^ monzo[i]` for each component. -/
noncomputable def applyCommas (getComma : ℕ → Except Err ExtendedMonzo)
    (up : Bool) (result : ExtendedMonzo) (monzo : List ℤ) : Except Err ExtendedMonzo :=
  monzo.enum.foldlM (fun acc im => do
    let c ← getComma im.1
    if up then pure (acc.add (c.mul (im.2 : ℚ)))
    else pure (acc.sub (c.mul (im.2 : ℚ)))) result

/-- The superscript/subscript processing shared by `toJustIntonation` and
`absoluteToJustIntonation`: for each listed number, factor it and fold its
prime content in comma by comma. -/
noncomputable def applyScripts (getComma : ℕ → Except Err ExtendedMonzo)
    (result : ExtendedMonzo) (superscripts subscripts : List ℕ) :
    Except Err ExtendedMonzo := do
  let result ← superscripts.foldlM (fun acc s => do
    match toMonzoList PRIMES s with
    | none => .error .outOfPrimes
    | some monzo => applyCommas getComma true acc monzo) result
  subscripts.foldlM (fun acc s => do
    match toMonzoList PRIMES s with
    | none => .error .outOfPrimes
    | some monzo => applyCommas getComma false acc monzo) result

/-- `toJustIntonation` of `fjs.ts`: the Pythagorean skeleton of the FJS
token, adjusted by the formal (or, for neutral skeletons, neutral) commas
named by its superscripts and subscripts. -/
noncomputable def toJustIntonation (quality : List Char) (degree : ℚ)
    (superscripts subscripts : List ℕ) : Except Err ExtendedMonzo :=
  let result := fromParts quality degree
  let getComma :=
    if (result.vector.getD 0 0).den > 1 ∧ (result.vector.getD 1 0).den > 1 then
      getNeutralComma
    else getFormalComma
  applyScripts getComma result superscripts subscripts

/-- `absoluteToJustIntonation` of `fjs.ts`. -/
noncomputable def absoluteToJustIntonation (nominal : Char)
    (accidentals : List (List Char)) (octave : ℤ)
    (superscripts subscripts : List ℕ) : Except Err ExtendedMonzo := do
  let result ← absoluteFromParts nominal accidentals octave
  let getComma :=
    if (result.vector.getD 0 0).den > 1 ∧ (result.vector.getD 1 0).den > 1 then
      getNeutralComma
    else getFormalComma
  applyScripts getComma result superscripts subscripts

/-- The subgroup argument of `wartsToVal` (a string in the source): empty,
a bare prime-limit integer, or a dot-separated list of basis fractions. -/
inductive SubgroupSpec where
  | empty : SubgroupSpec
  | limit (n : ℕ) : SubgroupSpec
  | basis (l : List ℚ) : SubgroupSpec

/-- `wartToBasis` of `warts.ts`: no wart letter selects the octave, letters
`a`-`o` the first fifteen primes, letters `q`-`z` the non-prime basis
entries; `p` (and an out-of-range non-prime index) yields nothing. -/
def wartToBasis (wart : Option Char) (nonPrimes : List ℚ) : Option ℚ :=
  match wart with
  | none => some ((PRIMES.getD 0 0 : ℚ))
  | some c =>
    let index := c.toNat - 97
    if index < 15 then some ((PRIMES.getD index 0 : ℚ))
    else if index > 15 then (nonPrimes.get? (index - 16))
    else none

/-- `parseSubgroup` of `warts.ts`: expand the subgroup specification into the
basis list and its non-prime entries, defaulting to the first
`getNumberOfComponents()` primes. -/
def parseSubgroup (s : SubgroupSpec) : Except Err (List ℚ × List ℚ) := do
  let subgroup : List ℚ ←
    match s with
    | .empty => .ok []
    | .limit n =>
      if n ∈ PRIMES then
        .ok ((PRIMES.take (PRIMES.indexOf n + 1)).map (fun p => (p : ℚ)))
      else .error .invalidPrimeLimit
    | .basis l => .ok l
  let nonPrimes := subgroup.filter
    (fun b => 1 < b.den ∨ ¬ PRIMES.contains b.num.natAbs)
  let subgroup :=
    if subgroup.length = 0 then
      (PRIMES.take NUMBER_OF_COMPONENTS).map (fun p => (p : ℚ))
    else subgroup
  .ok (subgroup, nonPrimes)

/-- `inferEquave` of `warts.ts`. -/
def inferEquave (equave : Option Char) (s : SubgroupSpec) : Except Err (Option ℚ) := do
  let pair ← parseSubgroup s
  .ok (wartToBasis equave pair.2)

/-- The equave-fronting loop of `wartsToVal`: scan the basis list, moving any
entry equal to the equave to the front (a `splice`/`unshift` pair mutating
the array in place while iterating). -/
def moveEquave (ef : ℚ) (i : ℕ) (l : List ℚ) : List ℚ :=
  if h : i < l.length then
    if l.get ⟨i, h⟩ = ef then
      moveEquave ef (i + 1) (l.get ⟨i, h⟩ :: l.eraseIdx i)
    else
      moveEquave ef (i + 1) l
  else l
termination_by l.length - i
decreasing_by
  · have hlen := List.length_eraseIdx_of_lt h
    simp only [List.length_cons, hlen]
    omega
  · omega

/-- The per-entry wart correction of `wartsToVal`: `ceil(modifications / 2)`
steps away from the patent entry, toward (odd count) or away from (even
count) the sign of the rounding residual. -/
noncomputable def wartCorrect (x : ℝ) (v : ℤ) (m : ℕ) : ℤ :=
  open scoped Classical in
  let delta : ℤ := if m % 2 = 0 then -⌈(m : ℚ) * (1/2 : ℚ)⌉ else ⌈(m : ℚ) * (1/2 : ℚ)⌉
  if x - (v : ℝ) > 0 then v + delta else v - delta

/-- Modification counts of `wartsToVal`: how many wart letters name each
basis entry (the double loop incrementing `modification[i]`). -/
def wartCounts (subgroup : List ℚ) (warts : List Char) (nonPrimes : List ℚ) : List ℕ :=
  subgroup.map (fun b =>
    (warts.filter (fun w => wartToBasis (some w) nonPrimes = some b)).length)

/-- The val-array portion of `wartsToVal` (lines 77-103): ideal step counts,
their patent rounding and the wart corrections. -/
noncomputable def wartsValArray (subgroup : List ℚ) (edo : ℤ) (warts : List Char)
    (nonPrimes : List ℚ) : List ℤ :=
  let scale : ℝ := (edo : ℝ) / Real.log ((subgroup.headD 1 : ℚ) : ℝ)
  let scaledLogs := subgroup.map (fun f => scale * Real.log ((f : ℚ) : ℝ))
  let val := scaledLogs.map jsRound
  let modification := wartCounts subgroup warts nonPrimes
  List.zipWith (fun (xv : ℝ × ℤ) m => wartCorrect xv.1 xv.2 m)
    (scaledLogs.zip val) modification

/-- `wartsToVal` of `warts.ts`: front the equave, compute the corrected val
array, and reconstruct the mapping by composing the geometric inverses of
the basis entries raised to their val entries. -/
noncomputable def wartsToVal (equave : Option Char) (edo : ℤ) (warts : List Char)
    (s : SubgroupSpec) : Except Err ExtendedMonzo := do
  let pair ← parseSubgroup s
  let nonPrimes := pair.2
  let equaveFraction := wartToBasis equave nonPrimes
  let subgroup :=
    match equaveFraction with
    | some ef => moveEquave ef 0 pair.1
    | none => pair.1
  let val := wartsValArray subgroup edo warts nonPrimes
  let numberOfComponents := subgroup.foldl
    (fun acc b => max ((primeLimitLen PRIMES (b.num.natAbs * b.den)).getD 0) acc) 0
  let result := (subgroup.zip val).foldl
    (fun acc bv =>
      acc.add (((ExtendedMonzo.fromFraction bv.1 numberOfComponents).geometricInverse).mul
        (bv.2 : ℚ)))
    (ExtendedMonzo.mk1 (List.replicate numberOfComponents 0))
  .ok result

/-- The metric prefixes of `utils.ts` (`MetricPrefix`); `emptyPrefix` is the
empty string. -/
inductive MetricPrefix where
  | Q | R | Y | Z | E | P | T | G | M | k | h | da | emptyPrefix
  | d | c | m | mu | n | p | f | a | z | y | r | q
  deriving DecidableEq, Repr

/-- `metricPrefix` of `utils.ts`: the multiplier of each prefix (the source
builds them from JavaScript float literals like `1e30`; they denote the
corresponding powers of ten, used here exactly). -/
def metricPrefix : MetricPrefix → ℚ
  | .Q => 10 ^ 30
  | .R => 10 ^ 27
  | .Y => 10 ^ 24
  | .Z => 10 ^ 21
  | .E => 10 ^ 18
  | .P => 10 ^ 15
  | .T => 10 ^ 12
  | .G => 10 ^ 9
  | .M => 10 ^ 6
  | .k => 10 ^ 3
  | .h => 10 ^ 2
  | .da => 10 ^ 1
  | .emptyPrefix => 1
  | .d => 1 / 10
  | .c => 1 / 10 ^ 2
  | .m => 1 / 10 ^ 3
  | .mu => 1 / 10 ^ 6
  | .n => 1 / 10 ^ 9
  | .p => 1 / 10 ^ 12
  | .f => 1 / 10 ^ 15
  | .a => 1 / 10 ^ 18
  | .z => 1 / 10 ^ 21
  | .y => 1 / 10 ^ 24
  | .r => 1 / 10 ^ 27
  | .q => 1 / 10 ^ 30

/-- The whitelisted function names of the grammar and evaluator. -/
inductive FuncName where
  | frequency | ratio | pitch | mtof | ftom | nmtof | sqrt | cbrt
  deriving DecidableEq, Repr

/-- The binary operators of the unit-aware grammar (`×`/`*` multiply and
`%`/`÷` divide). -/
inductive BinOp where
  | plus | minus | times | dividedBy | toThe | modOp | reduceOp | logOp
  deriving DecidableEq, Repr

/-- The unary operators. -/
inductive UnOp where
  | plus | minus | dividedBy
  deriving DecidableEq, Repr

/-- The expression nodes of the unit-aware AST (part of the evaluator
module).  Literal fields hold the values the evaluator parses out of the
node's strings (`Fraction(text)`, `parseInt`, `parseFloat`). -/
inductive Expression where
  | variableAccess (name : String) : Expression
  | functionCall (name : FuncName) (value : Expression) : Expression
  | binary (op : BinOp) (left right : Expression) : Expression
  | unary (op : UnOp) (operand : Expression) : Expression
  | num (text : ℚ) : Expression
  | hardDecimal (amount : ℚ) : Expression
  | edji (numerator denominator : Option ℚ) (equave : Option Expression) : Expression
  | cent (hard : Bool) : Expression
  | inverseCent (hard : Bool) : Expression
  | monzoLit (components : List ℚ) : Expression
  | valLit (components : List ℚ) : Expression
  | wartsLit (equave : Option Char) (edo : ℤ) (warts : List Char)
      (subgroup : SubgroupSpec) : Expression
  | fjs (quality : List Char) (degree : ℚ) (superscripts subscripts : List ℕ) : Expression
  | absoluteFJS (nominal : Char) (accidentals : List (List Char)) (octave : ℤ)
      (superscripts subscripts : List ℕ) : Expression
  | hertz (pfx : MetricPrefix) (hard : Bool) : Expression
  | second (pfx : MetricPrefix) (hard : Bool) : Expression

/-- The caller-owned evaluation context (`ParsingContext`, a string-keyed
map of quantities). -/
def Ctx := String → Option Quantity

/-- `context.set`. -/
def ctxSet (ctx : Ctx) (key : String) (v : Quantity) : Ctx :=
  fun s => if s = key then some v else ctx s

/-- The module constant `CENT` (`fromEqualTemperament(1/1200)`); the
conversion cannot fail for the octave equave. -/
def CENT : ExtendedMonzo :=
  match ExtendedMonzo.fromEqualTemperament (1 / 1200) none none with
  | .ok m => m
  | .error _ => ExtendedMonzo.mk1 []

/-- The module constant `INVERSE_CENT` (`fromEqualTemperament(1200)`). -/
def INVERSE_CENT : ExtendedMonzo :=
  match ExtendedMonzo.fromEqualTemperament 1200 none none with
  | .ok m => m
  | .error _ => ExtendedMonzo.mk1 []

/-- The module constant `UNISON` (`new ExtendedMonzo([])`). -/
def UNISON : ExtendedMonzo := ExtendedMonzo.mk1 []

open scoped Classical in
/-- `evaluateExpression` of the evaluator module: the recursive,
context-reading tree walk producing a quantity. -/
noncomputable def evaluateExpression (ast : Expression) (context : Ctx) :
    Except Err Quantity :=
  match ast with
  | .functionCall name value => do
    let v ← evaluateExpression value context
    match name with
    | .pitch => SW.pitch v (context "0")
    | .ratio => SW.ratio v (context "0")
    | .frequency => SW.frequency v (context "0")
    | .mtof => SW.mtof v
    | .ftom => SW.ftom v (context "0")
    | .nmtof => SW.nmtof v
    | .sqrt => SW.sqrt v
    | .cbrt => SW.cbrt v
  | .binary op left right => do
    let l ← evaluateExpression left context
    let r ← evaluateExpression right context
    match op with
    | .plus => l.add r
    | .minus => l.sub r
    | .times => l.mul r
    | .dividedBy => l.div r
    | .toThe => l.pow r
    | .modOp => l.mod r
    | .reduceOp => l.reduce r
    | .logOp => l.log r
  | .unary op operand => do
    let v ← evaluateExpression operand context
    match op with
    | .plus => .ok v
    | .minus => v.neg
    | .dividedBy => v.inverse
  | .num text =>
    Quantity.mk' (ExtendedMonzo.fromFraction text NUMBER_OF_COMPONENTS) .scalar 0
  | .hardDecimal amount =>
    Quantity.mk' (ExtendedMonzo.fromValue (amount : ℝ) NUMBER_OF_COMPONENTS) .scalar 0
  | .edji numerator denominator equave => do
    let numerator := numerator.getD 1
    let denominator := denominator.getD 12
    match equave with
    | some equaveExpr =>
      let quantity ← evaluateExpression equaveExpr context
      if quantity.exponent = 0 ∧ quantity.value.isFractional then
        match quantity.value.toFraction with
        | .error e => .error e
        | .ok equave => do
          let m ← ExtendedMonzo.fromEqualTemperament (numerator / denominator) (some equave)
          Quantity.mk' m .pitch 1
      else do
        let p ← SW.pitch quantity
        let cents := p.value.totalCents
        Quantity.mk' (ExtendedMonzo.fromCents (cents * (numerator : ℝ) / (denominator : ℝ))
          NUMBER_OF_COMPONENTS) .pitch 1
    | none => do
      let m ← ExtendedMonzo.fromEqualTemperament (numerator / denominator)
      Quantity.mk' m .pitch 1
  | .cent hard =>
    if hard then Quantity.mk' (ExtendedMonzo.fromCents 1 NUMBER_OF_COMPONENTS) .pitch 1
    else Quantity.mk' CENT .pitch 1
  | .inverseCent hard =>
    if hard then Quantity.mk' (ExtendedMonzo.fromCents 1 NUMBER_OF_COMPONENTS) .pitch (-1)
    else Quantity.mk' INVERSE_CENT .pitch (-1)
  | .monzoLit components =>
    Quantity.mk' (ExtendedMonzo.mk1 components) .pitch 1
  | .valLit components =>
    Quantity.mk' (ExtendedMonzo.mk1 components) .pitch (-1)
  | .wartsLit equave edo warts subgroup => do
    let val ← wartsToVal equave edo warts subgroup
    Quantity.mk' val .pitch (-1)
  | .fjs quality degree superscripts subscripts => do
    let value ← toJustIntonation quality degree superscripts subscripts
    Quantity.mk' value .pitch 1
  | .absoluteFJS nominal accidentals octave superscripts subscripts => do
    let value ← absoluteToJustIntonation nominal accidentals octave superscripts subscripts
    let root := match context "#root" with
      | some r => r.value
      | none => UNISON
    Quantity.mk' (value.sub root) .pitch 1
  | .hertz pfx hard =>
    if hard then
      Quantity.mk' (ExtendedMonzo.fromValue ((metricPrefix pfx : ℚ) : ℝ)
        NUMBER_OF_COMPONENTS) .time (-1)
    else
      Quantity.mk' (ExtendedMonzo.fromFraction (metricPrefix pfx)
        NUMBER_OF_COMPONENTS) .time (-1)
  | .second pfx hard =>
    if hard then
      Quantity.mk' (ExtendedMonzo.fromValue ((metricPrefix pfx : ℚ) : ℝ)
        NUMBER_OF_COMPONENTS) .time 1
    else
      Quantity.mk' (ExtendedMonzo.fromFraction (metricPrefix pfx)
        NUMBER_OF_COMPONENTS) .time 1
  | .variableAccess name =>
    let name :=
      if name.startsWith "-" then
        match context "#" with
        | none => name  -- `getSize` would crash; resolved below
        | some sq => toString (jsRound sq.value.valueOf + (name.toInt?.getD 0))
      else name
    match context name with
    | none => .error (.unboundVariable name)
    | some v => .ok v

/-- The line-level AST (`parseAST` result): a variable declaration, a map
declaration, a pitch assignment or a bare expression. -/
inductive Ast where
  | varDecl (name : String) (value : Expression) : Ast
  | mapDecl (value : Expression) : Ast
  | pitchAssign (nominal : Char) (accidentals : List (List Char)) (octave : ℤ)
      (superscripts subscripts : List ℕ) (value : Expression) : Ast
  | expr (e : Expression) : Ast

/-- `getSize`: `Math.round(context.get('#')!.value.valueOf())`; `none` when
the key is absent (where the JS non-null assertion would crash). -/
noncomputable def getSize (context : Ctx) : Option ℤ :=
  (context "#").map (fun sq => jsRound sq.value.valueOf)

/-- The loop of the map declaration: for each degree index, stash the prior
value under `''` (the `$` backreference) and overwrite the degree with the
re-evaluated expression.  Mutations made before a failure persist, as they
do across a JavaScript throw. -/
noncomputable def mapLoop (value : Expression) : Ctx → ℕ → ℕ →
    Ctx × Except Err (Option Quantity)
  | ctx, _, 0 => (ctx, .ok none)
  | ctx, i, r + 1 =>
    match ctx (toString i) with
    | none => (ctx, .error .typeError)
    | some prev =>
      let ctx := ctxSet ctx "" prev
      match evaluateExpression value ctx with
      | .error e => (ctx, .error e)
      | .ok q => mapLoop value (ctxSet ctx (toString i) q) (i + 1) r

/-- `evaluateAST`: evaluate one line against the context, returning the
(possibly mutated) context alongside the produced quantity, a unit result
for declarations, or the error thrown.  The context component reflects every
write performed before a failure. -/
noncomputable def evaluateAST (ast : Ast) (context : Ctx) :
    Ctx × Except Err (Option Quantity) :=
  match ast with
  | .varDecl name value =>
    match evaluateExpression value context with
    | .error e => (context, .error e)
    | .ok q => (ctxSet context name q, .ok none)
  | .mapDecl value =>
    match getSize context with
    | none => (context, .error .typeError)
    | some size => mapLoop value context 1 (size - 1).toNat
  | .pitchAssign nominal accidentals octave superscripts subscripts value =>
    match evaluateExpression value context with
    | .error e => (context, .error e)
    | .ok q =>
      match evaluateExpression
        (.absoluteFJS nominal accidentals octave superscripts subscripts) context with
      | .error e => (context, .error e)
      | .ok root => (ctxSet context "#root" root, .ok (some q))
  | .expr e =>
    match evaluateExpression e context with
    | .error err => (context, .error err)
    | .ok q => (context, .ok (some q))

/-- C1: `Quantity.add` throws whenever the domains differ, and whenever the
exponents differ; for two pitch-domain quantities with equal exponents the
result's value is the frequency-space product (pitch-space sum) of the
operands' values (with the product law on represented values holding for
nonzero residuals), and in every other legal case the underlying values add
numerically. -/
theorem add_unit_closure (a b : Quantity) (ha : Inv a) :
    (a.domain ≠ b.domain → a.add b = .error .domainMismatch) ∧
    (a.exponent ≠ b.exponent → ∃ e, a.add b = .error e) ∧
    (a.domain = b.domain → a.exponent = b.exponent → a.domain = .pitch →
      a.add b = .ok ⟨a.value.add b.value, a.domain, a.exponent⟩ ∧
      (a.value.residual ≠ 0 → b.value.residual ≠ 0 →
        (a.value.add b.value).valueOf = a.value.valueOf * b.value.valueOf)) ∧
    (a.domain = b.domain → a.exponent = b.exponent → a.domain ≠ .pitch →
      a.add b = .ok ⟨a.value.linAdd b.value, a.domain, a.exponent⟩) := by
  refine ⟨?_, ?_, ?_, ?_⟩
  · intro hne
    unfold Quantity.add
    rw [if_pos (fun hc => hne hc.symm)]
  · intro hne
    by_cases hd : b.domain = a.domain
    · refine ⟨.exponentMismatch, ?_⟩
      unfold Quantity.add
      rw [if_neg (by simpa using hd), if_pos (fun hc => hne hc.symm)]
    · refine ⟨.domainMismatch, ?_⟩
      unfold Quantity.add
      rw [if_pos hd]
  · intro hd he hp
    exact ⟨add_ok_pitch ha hd he hp, fun hra hrb => valueOf_add a.value b.value hra hrb⟩
  · intro hd he hp
    exact add_ok_other ha hd he hp

/-- Witness for C1 at two concrete pitch quantities. -/
theorem add_unit_closure_witness :
    (⟨ExtendedMonzo.mk1 [1], .pitch, 1⟩ : Quantity).add ⟨ExtendedMonzo.mk1 [], .pitch, 1⟩ =
      .ok ⟨(ExtendedMonzo.mk1 [1]).add (ExtendedMonzo.mk1 []), .pitch, 1⟩ :=
  ((add_unit_closure ⟨ExtendedMonzo.mk1 [1], .pitch, 1⟩ ⟨ExtendedMonzo.mk1 [], .pitch, 1⟩
    (by simp [Inv])).2.2.1 rfl rfl rfl).1

/-- C5: every successfully constructed `Quantity` — and hence the result of
every `Quantity` operation — satisfies the invariant that a zero exponent
exactly characterizes the scalar domain. -/
theorem quantity_invariant :
    (∀ (v : ExtendedMonzo) (d : Domain) (e : ℚ) (q : Quantity),
      Quantity.mk' v d e = .ok q → Inv q) ∧
    (∀ a q : Quantity, a.neg = .ok q → Inv q) ∧
    (∀ a q : Quantity, a.inverse = .ok q → Inv q) ∧
    (∀ a b q : Quantity, a.add b = .ok q → Inv q) ∧
    (∀ a b q : Quantity, a.sub b = .ok q → Inv q) ∧
    (∀ a b q : Quantity, a.mul b = .ok q → Inv q) ∧
    (∀ a b q : Quantity, a.div b = .ok q → Inv q) ∧
    (∀ a b q : Quantity, a.pow b = .ok q → Inv q) ∧
    (∀ a b q : Quantity, a.log b = .ok q → Inv q) ∧
    (∀ a b q : Quantity, a.mod b = .ok q → Inv q) ∧
    (∀ a b q : Quantity, a.reduce b = .ok q → Inv q) :=
  ⟨fun _ _ _ _ h => mk'_inv h, fun _ _ h => neg_inv h, fun _ _ h => inverse_inv h,
    fun _ _ _ h => add_inv h, fun _ _ _ h => sub_inv h, fun _ _ _ h => mul_inv h,
    fun _ _ _ h => div_inv h, fun _ _ _ h => pow_inv h, fun _ _ _ h => log_inv h,
    fun _ _ _ h => mod_inv h, fun _ _ _ h => reduce_inv h⟩

/-- Witness for C5: the constructor coerces a zero exponent into the scalar
domain at a concrete input. -/
theorem quantity_invariant_witness : Inv ⟨ExtendedMonzo.mk1 [], .scalar, 0⟩ :=
  quantity_invariant.1 (ExtendedMonzo.mk1 []) .pitch 0 ⟨ExtendedMonzo.mk1 [], .scalar, 0⟩
    (by simp [Quantity.mk'])

/-- The length of the prime table. -/
theorem PRIMES_length : PRIMES.length = 1229 := rfl

/-- C2: for every rational `r` and every number of components `N` within the
prime table, `fromFraction(r, N).toFraction()` returns exactly `r` (the
residual absorbs every factor beyond the vector part). -/
theorem fromFraction_roundtrip (r : ℚ) (N : ℕ) (hN : N ≤ PRIMES.length) :
    (ExtendedMonzo.fromFraction r N).toFraction = .ok r :=
  ExtendedMonzo.toFraction_fromFraction r N hN

/-- Witness for C2 at `r = 81/80`, `N = 9`. -/
theorem fromFraction_roundtrip_witness :
    (ExtendedMonzo.fromFraction (81 / 80) 9).toFraction = .ok (81 / 80) :=
  fromFraction_roundtrip (81 / 80) 9 (by rw [PRIMES_length]; norm_num)

/-- C7 counterexample: the input `3/2` parses as a `Number` literal, and the
evaluator's number branch produces a quantity in the `scalar` domain, not the
`pitch` domain the claim asserts. -/
theorem ratio_parse_domain_counterexample :
    evaluateExpression (.num (3 / 2)) (fun _ => none) =
      .ok ⟨ExtendedMonzo.fromFraction (3 / 2) NUMBER_OF_COMPONENTS, .scalar, 0⟩ ∧
    Domain.scalar ≠ Domain.pitch := by
  constructor
  · simp [evaluateExpression, Quantity.mk']
  · intro h
    exact Domain.noConfusion h

/-- C7 (amended): evaluating the parsed AST of `3/2` in any context yields a
scalar quantity (domain `scalar`, exponent 0) whose underlying value's
`toFraction()` is exactly 3/2. -/
theorem ratio_parse_amended (ctx : Ctx) :
    evaluateExpression (.num (3 / 2)) ctx =
      .ok ⟨ExtendedMonzo.fromFraction (3 / 2) NUMBER_OF_COMPONENTS, .scalar, 0⟩ ∧
    (ExtendedMonzo.fromFraction (3 / 2) NUMBER_OF_COMPONENTS).toFraction = .ok (3 / 2) := by
  constructor
  · simp [evaluateExpression, Quantity.mk']
  · exact ExtendedMonzo.toFraction_fromFraction (3 / 2) NUMBER_OF_COMPONENTS
      (by rw [PRIMES_length]; norm_num [NUMBER_OF_COMPONENTS])

theorem getD_zipWith {α β γ : Type} (f : α → β → γ) (as : List α) (bs : List β)
    (i : ℕ) (ha : i < as.length) (hb : i < bs.length) (d : γ) (da : α) (db : β) :
    (List.zipWith f as bs).getD i d = f (as.getD i da) (bs.getD i db) := by
  induction as generalizing bs i with
  | nil => simp at ha
  | cons a as ih =>
    cases bs with
    | nil => simp at hb
    | cons b bs =>
      cases i with
      | zero => simp
      | succ j =>
        simp only [List.zipWith_cons_cons, List.getD_cons_succ]
        exact ih bs j (by simpa using ha) (by simpa using hb)

theorem getD_map {α β : Type} (f : α → β) (as : List α) (i : ℕ)
    (ha : i < as.length) (d : β) (da : α) :
    (as.map f).getD i d = f (as.getD i da) := by
  induction as generalizing i with
  | nil => simp at ha
  | cons a as ih =>
    cases i with
    | zero => simp
    | succ j =>
      simp only [List.map_cons, List.getD_cons_succ]
      exact ih j (by simpa using ha)

/-- The ideal (unrounded) step count of the `i`-th subgroup entry in
`wartsToVal` (`scaledLogs[i]`). -/
noncomputable def idealSteps (subgroup : List ℚ) (edo : ℤ) (i : ℕ) : ℝ :=
  (edo : ℝ) / Real.log ((subgroup.headD 1 : ℚ) : ℝ) * Real.log ((subgroup.getD i 1 : ℚ) : ℝ)

theorem getD_zip {α β : Type} (as : List α) (bs : List β) (i : ℕ)
    (ha : i < as.length) (hb : i < bs.length) (da : α) (db : β) :
    (as.zip bs).getD i (da, db) = (as.getD i da, bs.getD i db) := by
  unfold List.zip
  rw [getD_zipWith Prod.mk as bs i ha hb (da, db) da db]

/-- The wart correction at a single modification count. -/
theorem wartCorrect_one (x : ℝ) (v : ℤ) :
    wartCorrect x v 1 = if x - (v : ℝ) > 0 then v + 1 else v - 1 := by
  have hc : (⌈((1 : ℕ) : ℚ) * (1/2 : ℚ)⌉ : ℤ) = 1 :=
    Int.ceil_eq_iff.mpr (by norm_num)
  unfold wartCorrect
  simp only [Nat.one_mod, hc]
  norm_num

/-- The wart correction at modification count zero. -/
theorem wartCorrect_zero (x : ℝ) (v : ℤ) : wartCorrect x v 0 = v := by
  unfold wartCorrect
  norm_num

/-- C8: in `wartsToVal`, a basis element named by exactly one wart letter has
its val entry differ from the patent entry (the rounding of its ideal step
count) by exactly one step, in the direction of the rounding residual:
incremented when the ideal step count exceeds its rounding, decremented
otherwise; a basis element named by no wart letter keeps its patent entry. -/
theorem warts_single_wart (subgroup : List ℚ) (edo : ℤ) (warts : List Char)
    (nonPrimes : List ℚ) (i : ℕ) (hi : i < subgroup.length) :
    ((wartCounts subgroup warts nonPrimes).getD i 0 = 1 →
      (wartsValArray subgroup edo warts nonPrimes).getD i 0 =
        if idealSteps subgroup edo i - (jsRound (idealSteps subgroup edo i) : ℝ) > 0 then
          jsRound (idealSteps subgroup edo i) + 1
        else jsRound (idealSteps subgroup edo i) - 1) ∧
    ((wartCounts subgroup warts nonPrimes).getD i 0 = 0 →
      (wartsValArray subgroup edo warts nonPrimes).getD i 0 =
        jsRound (idealSteps subgroup edo i)) := by
  have hlen_counts : i < (wartCounts subgroup warts nonPrimes).length := by
    simpa [wartCounts] using hi
  have hkey : ∀ m : ℕ, (wartCounts subgroup warts nonPrimes).getD i 0 = m →
      (wartsValArray subgroup edo warts nonPrimes).getD i 0 =
        wartCorrect (idealSteps subgroup edo i) (jsRound (idealSteps subgroup edo i)) m := by
    intro m hm
    unfold wartsValArray
    set sl := subgroup.map (fun f : ℚ =>
      (edo : ℝ) / Real.log ((subgroup.headD 1 : ℚ) : ℝ) * Real.log ((f : ℚ) : ℝ)) with hsl
    have h1 : i < sl.length := by simpa [hsl] using hi
    have h2 : i < (sl.map jsRound).length := by simpa using h1
    have h3 : i < (sl.zip (sl.map jsRound)).length := by
      rw [List.length_zip]
      omega
    rw [getD_zipWith (fun (xv : ℝ × ℤ) m => wartCorrect xv.1 xv.2 m) _ _ i h3 hlen_counts
      0 ((0 : ℝ), (0 : ℤ)) 0]
    rw [getD_zip sl (sl.map jsRound) i h1 h2 (0 : ℝ) (0 : ℤ)]
    dsimp only
    rw [getD_map jsRound sl i h1 (0 : ℤ) (0 : ℝ), hm, hsl,
      getD_map _ subgroup i hi (0 : ℝ) (1 : ℚ)]
    rfl
  refine ⟨fun h1 => ?_, fun h0 => ?_⟩
  · rw [hkey 1 h1, wartCorrect_one]
  · rw [hkey 0 h0, wartCorrect_zero]

/-- Witness for C8: in the 12-EDO val over the 2.3.5 subgroup with the
single wart `a`, the octave entry moves one step off patent in the direction
of its rounding residual. -/
theorem warts_single_wart_witness :
    (wartsValArray [2, 3, 5] 12 ['a'] []).getD 0 0 =
      if idealSteps [2, 3, 5] 12 0 - (jsRound (idealSteps [2, 3, 5] 12 0) : ℝ) > 0 then
        jsRound (idealSteps [2, 3, 5] 12 0) + 1
      else jsRound (idealSteps [2, 3, 5] 12 0) - 1 :=
  (warts_single_wart [2, 3, 5] 12 ['a'] [] 0 (by norm_num)).1 (by decide)

theorem neutralWholeLoop_char (t : ℝ) :
    ∀ r k : ℕ, ∀ q : ℚ, neutralWholeLoop t k r = some q →
      (2 * q).den = 1 ∧ |q| ≤ (k : ℚ) + (r : ℚ) - 1 := by
  intro r
  induction r with
  | zero => intro k q h; exact Option.noConfusion h
  | succ r ih =>
    intro k q h
    rw [neutralWholeLoop] at h
    split at h
    · cases h
      constructor
      · have : (2 * (k : ℚ)) = ((2 * k : ℕ) : ℚ) := by push_cast; ring
        rw [this, Rat.den_natCast]
      · rw [abs_of_nonneg (by positivity)]
        push_cast
        linarith
    · split at h
      · cases h
        constructor
        · have : (2 * (-(k : ℚ))) = ((-(2 * k : ℤ) : ℤ) : ℚ) := by push_cast; ring
          rw [this, Rat.den_intCast]
        · rw [abs_neg, abs_of_nonneg (by positivity)]
          push_cast
          linarith
      · have := ih (k + 1) q h
        refine ⟨this.1, ?_⟩
        have h2 := this.2
        push_cast at h2 ⊢
        linarith

theorem neutralHalfLoop_char (t : ℝ) :
    ∀ r k : ℕ, 1 ≤ k → ∀ q : ℚ, neutralHalfLoop t k r = some q →
      (2 * q).den = 1 ∧ |q| ≤ (k : ℚ) + (r : ℚ) - 3/2 := by
  intro r
  induction r with
  | zero => intro k _ q h; exact Option.noConfusion h
  | succ r ih =>
    intro k hk1 q h
    have hk1q : (1 : ℚ) ≤ (k : ℚ) := by exact_mod_cast hk1
    rw [neutralHalfLoop] at h
    split at h
    · cases h
      constructor
      · have : (2 * ((k : ℚ) - 1/2)) = (((2 * k : ℤ) - 1 : ℤ) : ℚ) := by push_cast; ring
        rw [this, Rat.den_intCast]
      · rw [abs_of_nonneg (by linarith)]
        push_cast
        linarith
    · split at h
      · cases h
        constructor
        · have : (2 * (1/2 - (k : ℚ))) = ((1 - (2 * k : ℤ) : ℤ) : ℚ) := by push_cast; ring
          rw [this, Rat.den_intCast]
        · rw [abs_of_nonpos (by linarith)]
          push_cast
          linarith
      · have := ih (k + 1) (by omega) q h
        refine ⟨this.1, ?_⟩
        have h2 := this.2
        push_cast at h2 ⊢
        linarith

/-- C10: `neutralMaster` is total with a bounded search: on every input it
either returns a fifth count `k` with `|k| ≤ 6` that is an integer or a
half-integer, or it fails with the 'Unable to locate NFJS region' error, so
the neutral comma search never loops unboundedly. -/
theorem neutralMaster_total (t : ℝ) :
    (∃ k : ℚ, neutralMaster t = .ok k ∧ |k| ≤ 6 ∧ (2 * k).den = 1) ∨
    neutralMaster t = .error .nfjsRegion := by
  unfold neutralMaster
  split
  · exact .inl ⟨0, rfl, by norm_num, by norm_num⟩
  · rcases hw : neutralWholeLoop t 1 6 with _ | k
    · rcases hh : neutralHalfLoop t 1 6 with _ | k
      · exact .inr rfl
      · left
        have := neutralHalfLoop_char t 6 1 (by omega) k hh
        exact ⟨k, rfl, le_trans this.2 (by norm_num), this.1⟩
    · left
      have := neutralWholeLoop_char t 6 1 k hw
      exact ⟨k, rfl, le_trans this.2 (by norm_num), this.1⟩

/-- C4 (amended): for variable declarations, pitch assignments and bare
expressions — every line form except the map declaration — a failed
evaluation (in particular a dimensional type error) leaves the evaluation
context exactly as it was: expression evaluation never writes, and the
declaration writes happen only after every evaluation has succeeded. -/
theorem evaluateAST_preserves_context (ast : Ast) (ctx : Ctx)
    (hnotmap : ∀ v, ast ≠ .mapDecl v) (e : Err)
    (herr : (evaluateAST ast ctx).2 = .error e)
    (_hdim : e = .domainMismatch ∨ e = .exponentMismatch ∨
      e = .incompatibleDomains ∨ e = .cannotExponentiatePitch) :
    (evaluateAST ast ctx).1 = ctx := by
  cases ast with
  | varDecl name value =>
    simp only [evaluateAST] at herr ⊢
    cases hv : evaluateExpression value ctx with
    | error er => simp [hv]
    | ok q => simp [hv] at herr
  | mapDecl v => exact absurd rfl (hnotmap v)
  | pitchAssign n a o s1 s2 value =>
    simp only [evaluateAST] at herr ⊢
    cases hv : evaluateExpression value ctx with
    | error er => simp [hv]
    | ok q =>
      cases hr : evaluateExpression (.absoluteFJS n a o s1 s2) ctx with
      | error er => simp [hr]
      | ok root =>
        simp [hv, hr] at herr
  | expr ex =>
    simp only [evaluateAST] at herr ⊢
    cases hv : evaluateExpression ex ctx with
    | error er => simp [hv]
    | ok q => simp [hv] at herr

/-- Witness for C4: adding a scalar literal to a monzo literal raises a
domain mismatch, and the (empty) context is untouched. -/
theorem evaluateAST_preserves_context_witness :
    (evaluateAST (.expr (.binary .plus (.num 1) (.monzoLit [1]))) (fun _ => none)).1 =
      (fun _ => none) :=
  evaluateAST_preserves_context (.expr (.binary .plus (.num 1) (.monzoLit [1])))
    (fun _ => none) (fun v h => Ast.noConfusion h) .domainMismatch
    (by simp [evaluateAST, evaluateExpression, Quantity.mk', Quantity.add, bind, Except.bind])
    (Or.inl rfl)

theorem PRIME_CENTS_zero : PRIME_CENTS 0 = 1200 := by
  unfold PRIME_CENTS valueToCents
  rw [show (PRIMES.getD 0 0 : ℕ) = 2 from rfl]
  rw [show ((2 : ℕ) : ℝ) = 2 by norm_num]
  rw [Real.logb_self_eq_one (by norm_num)]
  norm_num

/-- A concrete evaluation context for the map-declaration counterexample:
scale size 4, a pitch first degree and a scalar second degree. -/
def mapCtx : Ctx := fun s =>
  if s = "#" then some ⟨⟨[2], 1, 0⟩, .scalar, 0⟩
  else if s = "1" then some ⟨⟨[1], 1, 0⟩, .pitch, 1⟩
  else if s = "2" then some ⟨⟨[], 1, 0⟩, .scalar, 0⟩
  else none

theorem mapCtx_sharp_valueOf : (⟨[2], 1, 0⟩ : ExtendedMonzo).valueOf = 4 := by
  unfold ExtendedMonzo.valueOf ExtendedMonzo.totalCents centsToValue valueToCents
  simp only [ExtendedMonzo.vectorCents, PRIME_CENTS_zero]
  push_cast
  rw [Real.logb_one]
  rw [show (0 + 1200 * 0 + (2 * 1200 + 0)) / 1200 = ((2 : ℕ) : ℝ) by norm_num]
  rw [Real.rpow_natCast]
  norm_num

theorem getSize_mapCtx : getSize mapCtx = some 4 := by
  unfold getSize
  rw [show mapCtx "#" = some ⟨⟨[2], 1, 0⟩, .scalar, 0⟩ from rfl]
  simp only [Option.map_some', mapCtx_sharp_valueOf]
  unfold jsRound
  norm_num

theorem mapLoop_succ (value : Expression) (ctx : Ctx) (i r : ℕ) :
    mapLoop value ctx i (r + 1) =
      match ctx (toString i) with
      | none => (ctx, .error .typeError)
      | some prev =>
        match evaluateExpression value (ctxSet ctx "" prev) with
        | .error e => (ctxSet ctx "" prev, .error e)
        | .ok q => mapLoop value (ctxSet (ctxSet ctx "" prev) (toString i) q) (i + 1) r := rfl

theorem evalMapExpr (ctx : Ctx) (q : Quantity) (hq : ctx "" = some q) :
    evaluateExpression (.binary .plus (.variableAccess "") (.monzoLit [1])) ctx =
      q.add ⟨ExtendedMonzo.mk1 [1], .pitch, 1⟩ := by
  simp only [evaluateExpression, bind, Except.bind]
  rw [show ("".startsWith "-") = false from by decide]
  simp only [Bool.false_eq_true, if_false, hq]
  simp [Quantity.mk']

theorem mapStep_pitch :
    (⟨⟨[1], 1, 0⟩, .pitch, 1⟩ : Quantity).add ⟨ExtendedMonzo.mk1 [1], .pitch, 1⟩ =
      .ok ⟨(⟨[1], 1, 0⟩ : ExtendedMonzo).add (ExtendedMonzo.mk1 [1]), .pitch, 1⟩ := by
  simp [Quantity.add, Quantity.mk']

theorem mapStep_scalar :
    (⟨⟨[], 1, 0⟩, .scalar, 0⟩ : Quantity).add ⟨ExtendedMonzo.mk1 [1], .pitch, 1⟩ =
      .error .domainMismatch := by
  simp [Quantity.add]

/-- C4 counterexample: a map declaration whose expression fails with a
domain mismatch on the second degree leaves the evaluation context mutated:
the `$` scratch key `''` and the first degree have already been written. -/
theorem evaluateAST_map_context_corruption :
    (evaluateAST (.mapDecl (.binary .plus (.variableAccess "") (.monzoLit [1]))) mapCtx).2 =
      .error .domainMismatch ∧
    (evaluateAST (.mapDecl (.binary .plus (.variableAccess "") (.monzoLit [1]))) mapCtx).1 "" ≠
      mapCtx "" := by
  have hstep : evaluateAST (.mapDecl (.binary .plus (.variableAccess "") (.monzoLit [1]))) mapCtx =
      (ctxSet (ctxSet (ctxSet mapCtx "" ⟨⟨[1], 1, 0⟩, .pitch, 1⟩) "1"
          ⟨(⟨[1], 1, 0⟩ : ExtendedMonzo).add (ExtendedMonzo.mk1 [1]), .pitch, 1⟩) ""
          ⟨⟨[], 1, 0⟩, .scalar, 0⟩,
        .error .domainMismatch) := by
    simp only [evaluateAST, getSize_mapCtx]
    rw [show ((4 : ℤ) - 1).toNat = 2 + 1 from rfl]
    rw [mapLoop_succ]
    rw [show toString (1 : ℕ) = "1" from rfl]
    rw [show mapCtx "1" = some ⟨⟨[1], 1, 0⟩, .pitch, 1⟩ from by simp [mapCtx]]
    dsimp only
    rw [evalMapExpr _ ⟨⟨[1], 1, 0⟩, .pitch, 1⟩ (by simp [ctxSet])]
    rw [mapStep_pitch]
    dsimp only
    rw [mapLoop_succ]
    rw [show toString ((1 : ℕ) + 1) = "2" from rfl]
    rw [show (ctxSet (ctxSet mapCtx "" ⟨⟨[1], 1, 0⟩, .pitch, 1⟩) "1"
          ⟨(⟨[1], 1, 0⟩ : ExtendedMonzo).add (ExtendedMonzo.mk1 [1]), .pitch, 1⟩ : Ctx) "2" =
        some ⟨⟨[], 1, 0⟩, .scalar, 0⟩ from by simp [ctxSet, mapCtx]]
    dsimp only
    rw [evalMapExpr _ ⟨⟨[], 1, 0⟩, .scalar, 0⟩ (by simp [ctxSet])]
    rw [mapStep_scalar]
  constructor
  · rw [hstep]
  · rw [hstep]
    simp [ctxSet, mapCtx]

/-! Helper lemmas for the EDO/EDJI round trip (claim C3). -/

theorem den_mul_int_dvd (q : ℚ) (e : ℤ) : (q * (e : ℚ)).den ∣ q.den := by
  have h : q * (e : ℚ) = Rat.divInt (q.num * e) (q.den : ℤ) := by
    rw [Rat.divInt_eq_div]
    push_cast
    conv_lhs => rw [← Rat.num_div_den q]
    ring
  have := Rat.den_dvd (q.num * e) (q.den : ℤ)
  rw [← h] at this
  exact_mod_cast this

theorem mul_den_eq_num (q : ℚ) : q * (q.den : ℚ) = (q.num : ℚ) := by
  nth_rewrite 1 [← Rat.num_div_den q]
  exact div_mul_cancel₀ (q.num : ℚ)
    (show ((q.den : ℚ)) ≠ 0 from Nat.cast_ne_zero.mpr q.den_ne_zero)

theorem den_mul_eq_one_of_dvd (r : ℚ) (m : ℕ) (h : r.den ∣ m) :
    (r * (m : ℚ)).den = 1 := by
  obtain ⟨k, hk⟩ := h
  have : r * (m : ℚ) = ((r.num * k : ℤ) : ℚ) := by
    rw [hk]
    push_cast
    rw [← mul_assoc, mul_den_eq_num]
  rw [this, Rat.den_intCast]

theorem zipWith_mul_right_sum (B : ℤ) (cs es : List ℤ) :
    (List.zipWith (fun c e => c * B * e) cs es).sum =
      (List.zipWith (· * ·) cs es).sum * B := by
  induction cs generalizing es with
  | nil => simp
  | cons c cs ih =>
    cases es with
    | nil => simp
    | cons e es =>
      simp only [List.zipWith_cons_cons, List.sum_cons, ih, add_mul]
      ring_nf

theorem gcdIntList_bezout (es : List ℤ) :
    ∃ cs : List ℤ, (List.zipWith (· * ·) cs es).sum = (gcdIntList es : ℤ) := by
  induction es with
  | nil => exact ⟨[], by simp [gcdIntList]⟩
  | cons e es ih =>
    obtain ⟨cs, hs⟩ := ih
    refine ⟨Int.gcdA e (gcdIntList es) :: cs.map (· * Int.gcdB e (gcdIntList es)), ?_⟩
    simp only [List.zipWith_cons_cons, List.sum_cons]
    rw [List.zipWith_map_left]
    rw [show (List.zipWith (fun a b => a * Int.gcdB e (gcdIntList es) * b) cs es) =
      (List.zipWith (fun c e₂ => c * Int.gcdB e (gcdIntList es) * e₂) cs es) from rfl,
      zipWith_mul_right_sum, hs]
    have hb := Int.gcd_eq_gcd_ab e ((gcdIntList es : ℤ))
    have hgcd : Int.gcd e ((gcdIntList es : ℤ)) = Nat.gcd e.natAbs (gcdIntList es) := by
      simp [Int.gcd]
    rw [hgcd] at hb
    rw [show gcdIntList (e :: es) = Nat.gcd e.natAbs (gcdIntList es) from rfl, hb]
    ring

theorem den_dvd_of_mul_natCast (q : ℚ) (D : ℕ) (hD : D ≠ 0)
    (h : (q * (D : ℚ)).den = 1) : q.den ∣ D := by
  have hq : q = Rat.divInt (q * (D : ℚ)).num (D : ℤ) := by
    rw [Rat.divInt_eq_div]
    rw [(Rat.den_eq_one_iff _).mp h]
    field_simp
  have := Rat.den_dvd (q * (D : ℚ)).num (D : ℤ)
  rw [← hq] at this
  exact_mod_cast this

theorem foldl_lcm_eq_foldr {α : Type} (f : α → ℕ) (es : List α) (A : ℕ) :
    es.foldl (fun acc e => Nat.lcm acc (f e)) A =
      Nat.lcm A (es.foldr (fun e r => Nat.lcm (f e) r) 1) := by
  induction es generalizing A with
  | nil => simp [Nat.lcm_one_right]
  | cons e es ih =>
    simp only [List.foldl_cons, List.foldr_cons, ih, Nat.lcm_assoc]

theorem foldl_gcd_eq_foldr {α : Type} (f : α → ℕ) (es : List α) (A : ℕ) :
    es.foldl (fun acc e => Nat.gcd acc (f e)) A =
      Nat.gcd A (es.foldr (fun e r => Nat.gcd (f e) r) 0) := by
  induction es generalizing A with
  | nil => simp
  | cons e es ih =>
    simp only [List.foldl_cons, List.foldr_cons, ih, Nat.gcd_assoc]

theorem foldr_lcm_dvd {α : Type} (f : α → ℕ) (es : List α) (d : ℕ)
    (h : ∀ e ∈ es, f e ∣ d) : es.foldr (fun e r => Nat.lcm (f e) r) 1 ∣ d := by
  induction es with
  | nil => simp
  | cons e es ih =>
    exact Nat.lcm_dvd (h e (List.mem_cons_self e es))
      (ih (fun x hx => h x (List.mem_cons_of_mem e hx)))

theorem dvd_foldr_lcm {α : Type} (f : α → ℕ) (es : List α) (e : α) (he : e ∈ es) :
    f e ∣ es.foldr (fun x r => Nat.lcm (f x) r) 1 := by
  induction es with
  | nil => simp at he
  | cons a es ih =>
    rcases List.mem_cons.mp he with h | h
    · subst h; exact Nat.dvd_lcm_left _ _
    · exact (ih h).trans (Nat.dvd_lcm_right _ _)

theorem foldr_gcd_mul_left {α : Type} (K : ℕ) (f : α → ℕ) (es : List α) :
    es.foldr (fun e r => Nat.gcd (K * f e) r) 0 =
      K * es.foldr (fun e r => Nat.gcd (f e) r) 0 := by
  induction es with
  | nil => simp
  | cons e es ih => simp only [List.foldr_cons, ih, Nat.gcd_mul_left]

theorem mul_sum_zip_den (q R : ℚ) (cs es : List ℤ)
    (h : ∀ e ∈ es, (q * (e : ℚ) * R).den = 1) :
    (q * (((List.zipWith (· * ·) cs es).sum : ℤ) : ℚ) * R).den = 1 := by
  induction cs generalizing es with
  | nil => simp
  | cons c cs ih =>
    cases es with
    | nil => simp
    | cons e es =>
      have he : (q * (e : ℚ) * R).den = 1 := h e (List.mem_cons_self e es)
      obtain ⟨S, hS⟩ : ∃ S, (List.zipWith (· * ·) cs es).sum = S := ⟨_, rfl⟩
      have hs : (q * ((S : ℤ) : ℚ) * R).den = 1 := by
        rw [← hS]
        exact ih es (fun x hx => h x (List.mem_cons_of_mem e hx))
      simp only [List.zipWith_cons_cons, List.sum_cons, hS]
      have key : q * ((c * e + S : ℤ) : ℚ) * R =
          (((c * (q * (e : ℚ) * R).num + (q * ((S : ℤ) : ℚ) * R).num : ℤ)) : ℚ) := by
        have he2 := (Rat.den_eq_one_iff _).mp he
        have hs2 := (Rat.den_eq_one_iff _).mp hs
        push_cast [he2, hs2]
        ring
      rw [key, Rat.den_intCast]

theorem den_foldr_lcm (q : ℚ) (es : List ℤ) (hg : gcdIntList es = 1) :
    es.foldr (fun (e : ℤ) r => Nat.lcm ((q * (e : ℚ)).den) r) 1 = q.den := by
  obtain ⟨R, hR⟩ : ∃ R, es.foldr (fun (e : ℤ) r => Nat.lcm ((q * (e : ℚ)).den) r) 1 = R :=
    ⟨_, rfl⟩
  rw [hR]
  have hdvd1 : R ∣ q.den := by
    rw [← hR]
    exact foldr_lcm_dvd (fun e : ℤ => (q * (e : ℚ)).den) es q.den
      (fun e _ => den_mul_int_dvd q e)
  have hRne : R ≠ 0 := by
    intro h0
    rw [h0] at hdvd1
    exact q.den_ne_zero (Nat.eq_zero_of_zero_dvd hdvd1)
  have hterm : ∀ e ∈ es, (q * (e : ℚ) * (R : ℚ)).den = 1 := by
    intro e he
    refine den_mul_eq_one_of_dvd (q * (e : ℚ)) R ?_
    rw [← hR]
    exact dvd_foldr_lcm (fun x : ℤ => (q * (x : ℚ)).den) es e he
  obtain ⟨cs, hs⟩ := gcdIntList_bezout es
  have h1 : (q * (R : ℚ)).den = 1 := by
    have := mul_sum_zip_den q (R : ℚ) cs es hterm
    rw [hs, hg] at this
    simpa using this
  exact Nat.dvd_antisymm hdvd1 (den_dvd_of_mul_natCast q R hRne h1)

theorem num_inner_eq (q : ℚ) (e : ℤ) :
    (q * (e : ℚ) * ((q.den : ℕ) : ℚ)).num.natAbs = q.num.natAbs * e.natAbs := by
  have h : q * (e : ℚ) * ((q.den : ℕ) : ℚ) = ((q.num * e : ℤ) : ℚ) := by
    rw [mul_right_comm, mul_den_eq_num]
    push_cast
    ring
  rw [h, Rat.num_intCast, Int.natAbs_mul]

theorem num_foldr_gcd (q : ℚ) (es : List ℤ) (hg : gcdIntList es = 1) :
    es.foldr (fun (e : ℤ) r => Nat.gcd ((q * (e : ℚ) * ((q.den : ℕ) : ℚ)).num.natAbs) r) 0 =
      q.num.natAbs := by
  have hfun : (fun (e : ℤ) (r : ℕ) =>
      Nat.gcd ((q * (e : ℚ) * ((q.den : ℕ) : ℚ)).num.natAbs) r) =
      (fun (e : ℤ) r => Nat.gcd (q.num.natAbs * e.natAbs) r) := by
    funext e r
    rw [num_inner_eq]
  rw [hfun, foldr_gcd_mul_left q.num.natAbs Int.natAbs es]
  rw [show es.foldr (fun (e : ℤ) r => Nat.gcd e.natAbs r) 0 = gcdIntList es from rfl, hg,
    Nat.mul_one]

theorem natAbs_div_den_eq_abs (q : ℚ) :
    ((q.num.natAbs : ℕ) : ℚ) / ((q.den : ℕ) : ℚ) = |q| := by
  rw [Int.cast_natAbs]
  push_cast
  rw [← abs_of_pos (show (0 : ℚ) < (q.den : ℚ) by exact_mod_cast q.den_pos), ← abs_div,
    Rat.num_div_den]

theorem natRoot_one (d : ℕ) (hd : d ≠ 0) : natRoot 1 d = some 1 := by
  simp only [natRoot, show List.range 3 = [0, 1, 2] from rfl, List.find?]
  simp [Nat.zero_pow (Nat.pos_of_ne_zero hd)]

theorem qpow_one_left (e : ℚ) : qpow 1 e = some 1 := by
  unfold qpow
  split_ifs with h1 h2
  · simp
  · exact absurd h2 (by norm_num)
  · have hd : e.den ≠ 0 := e.den_ne_zero
    rw [show (1 : ℚ).num.natAbs = 1 from rfl, show (1 : ℚ).den = 1 from rfl,
      natRoot_one e.den hd]
    simp

theorem qpow_neg_exponent (b e : ℚ) : qpow b (-e) = (qpow b e).map (·⁻¹) := by
  unfold qpow
  rw [show (-e).den = e.den from Rat.neg_den e, show (-e).num = -e.num from Rat.neg_num e]
  split_ifs with h1 h2
  · simp [zpow_neg]
  · simp
  · cases hn : natRoot b.num.natAbs e.den with
    | none => simp
    | some rn =>
      cases hdn : natRoot b.den e.den with
      | none => simp
      | some rd => simp [zpow_neg]

theorem powFactors_map_neg (ps : List ℕ) (v : List ℚ) :
    ExtendedMonzo.powFactors ps (v.map (fun c => -c)) =
      (ExtendedMonzo.powFactors ps v).map (·⁻¹) := by
  induction v generalizing ps with
  | nil => simp [ExtendedMonzo.powFactors]
  | cons c cs ih =>
    cases ps with
    | nil => simp [ExtendedMonzo.powFactors]
    | cons p rest =>
      simp only [List.map_cons, ExtendedMonzo.powFactors, qpow_neg_exponent,
        Option.bind_eq_bind]
      cases hq : qpow (p : ℚ) c with
      | none => simp
      | some f =>
        cases hr : ExtendedMonzo.powFactors rest cs with
        | none => simp [ih, hr]
        | some r => simp [ih, hr, mul_inv, mul_comm]

theorem toFraction_neg_of_ok (m : ExtendedMonzo) (x : ℚ)
    (hc : m.cents = 0) (hr : m.residual = 1) (h : m.toFraction = .ok x) :
    (⟨m.vector.map (fun c => -c), 1, (0 : ℝ)⟩ : ExtendedMonzo).toFraction = .ok x⁻¹ := by
  simp only [ExtendedMonzo.toFraction, hc, hr, ne_eq, not_true_eq_false,
    not_false_eq_true, if_false, if_neg] at h ⊢
  rw [powFactors_map_neg]
  cases hpf : ExtendedMonzo.powFactors PRIMES m.vector with
  | none =>
    rw [hpf] at h
    exact absurd h (by simp)
  | some p =>
    rw [hpf] at h
    have hx : p = x := by simpa using h
    simp [hx]

/-- Core of claim C3: applying `toEqualTemperament` to the monzo built by
`fromEqualTemperament` from `q` steps of an equave whose vector exponents are
setwise coprime recovers `q` and the equave exactly. -/
theorem edji_roundtrip_core (q equave : ℚ) (N : ℕ) (h1 : 1 < equave)
    (hN : N ≤ PRIMES.length)
    (hres : (toMonzoAndResidual equave N).2 = 1)
    (hgcd : gcdIntList (intExponents equave N) = 1) :
    (ExtendedMonzo.mk1
        ((toMonzoAndResidual equave N).1.map (fun component => q * component))).toEqualTemperament =
      .ok (if q = 0 then ((0 : ℚ), (1 : ℚ)) else (q, equave)) := by
  obtain ⟨es, hes⟩ : ∃ es, intExponents equave N = es := ⟨_, rfl⟩
  rw [hes] at hgcd
  have hev1 : (toMonzoAndResidual equave N).1 = es.map (fun z : ℤ => (z : ℚ)) := by
    rw [toMonzoAndResidual_fst_eq, hes]
  have hne : es ≠ [] := by
    intro h0
    rw [h0] at hgcd
    simp [gcdIntList] at hgcd
  have hvec : (toMonzoAndResidual equave N).1.map (fun component => q * component) =
      es.map (fun e : ℤ => q * (e : ℚ)) := by
    rw [hev1, List.map_map]
    rfl
  rw [hvec]
  have hden : (es.map (fun e : ℤ => q * (e : ℚ))).foldl (fun acc c => Nat.lcm acc c.den) 1 =
      q.den := by
    simp only [List.foldl_map]
    rw [foldl_lcm_eq_foldr (fun e : ℤ => (q * (e : ℚ)).den) es 1, Nat.lcm_one_left]
    exact den_foldr_lcm q es hgcd
  simp only [ExtendedMonzo.toEqualTemperament, ExtendedMonzo.mk1]
  rw [if_neg (show ¬((0 : ℝ) ≠ 0) by simp)]
  rw [if_neg (show ¬((1 : ℚ) ≠ 1) by simp)]
  rw [if_neg (show ¬((es.map (fun e : ℤ => q * (e : ℚ))).length = 0) by
    simp [List.length_eq_zero, hne])]
  rw [hden]
  have hnum : (es.map (fun e : ℤ => q * (e : ℚ))).foldl
      (fun acc c => Nat.gcd acc ((c * ((q.den : ℕ) : ℚ)).num.natAbs)) 0 = q.num.natAbs := by
    simp only [List.foldl_map]
    rw [foldl_gcd_eq_foldr
      (fun e : ℤ => ((q * (e : ℚ) * ((q.den : ℕ) : ℚ)).num.natAbs)) es 0, Nat.gcd_zero_left]
    exact num_foldr_gcd q es hgcd
  rw [hnum]
  by_cases hq : q = 0
  · rw [if_pos (by simp [hq])]
    simp [hq]
  · rw [if_neg (by simp [Int.natAbs_eq_zero, Rat.num_eq_zero, hq])]
    rw [natAbs_div_den_eq_abs]
    simp only [ExtendedMonzo.div, qpow_one_left]
    rcases lt_trichotomy q 0 with hlt | h0 | hgt
    · have habs : |q| = -q := abs_of_neg hlt
      have hmapneg : (es.map (fun e : ℤ => q * (e : ℚ))).map (· / |q|) =
          ((toMonzoAndResidual equave N).1).map (fun c => -c) := by
        rw [hev1, habs, List.map_map, List.map_map]
        have hcomp : ((fun c => c / -q) ∘ fun e : ℤ => q * (e : ℚ)) =
            ((fun c : ℚ => -c) ∘ fun z : ℤ => (z : ℚ)) := by
          funext e
          simp only [Function.comp_apply, div_neg]
          rw [mul_div_cancel_left₀ _ hq]
        rw [hcomp]
      rw [hmapneg]
      have htf : (⟨(toMonzoAndResidual equave N).1, 1, (0 : ℝ)⟩ :
          ExtendedMonzo).toFraction = .ok equave := by
        have h2 := ExtendedMonzo.toFraction_fromFraction equave N hN
        simp only [ExtendedMonzo.fromFraction, ExtendedMonzo.mk2, hres] at h2
        exact h2
      have htfneg := toFraction_neg_of_ok ⟨(toMonzoAndResidual equave N).1, 1, 0⟩ equave
        rfl rfl htf
      rw [zero_div, htfneg]
      dsimp only
      have hlt1 : equave⁻¹ < 1 :=
        (inv_lt_one₀ (lt_trans zero_lt_one h1)).mpr h1
      rw [if_pos hlt1, inv_inv, habs, neg_neg]
      rw [if_neg hq]
    · exact absurd h0 hq
    · have habs : |q| = q := abs_of_pos hgt
      have hmapid : (es.map (fun e : ℤ => q * (e : ℚ))).map (· / |q|) =
          (toMonzoAndResidual equave N).1 := by
        rw [hev1, habs, List.map_map]
        have hcomp : ((fun c => c / q) ∘ fun e : ℤ => q * (e : ℚ)) =
            (fun z : ℤ => (z : ℚ)) := by
          funext e
          simp only [Function.comp_apply]
          rw [mul_div_cancel_left₀ _ hq]
        rw [hcomp]
      rw [hmapid]
      have htf : (⟨(toMonzoAndResidual equave N).1, 1, (0 : ℝ)⟩ :
          ExtendedMonzo).toFraction = .ok equave := by
        have h2 := ExtendedMonzo.toFraction_fromFraction equave N hN
        simp only [ExtendedMonzo.fromFraction, ExtendedMonzo.mk2, hres] at h2
        exact h2
      rw [zero_div, htf]
      dsimp only
      rw [if_neg (not_lt.mpr (le_of_lt h1))]
      rw [habs, if_neg hq]

/-- C3 counterexample: the perfect-power equave 4 defeats the round trip.
`fromEqualTemperament(1/2, 4)` builds the monzo `[1]` (half of the equave
vector `[2]`), but `toEqualTemperament` returns `(1, 2)` — one step of an
equal division of the octave — not the pair `(1/2, 4)` the claim asserts. -/
theorem fromEqualTemperament_roundtrip_counterexample :
    ExtendedMonzo.fromEqualTemperament (1 / 2) (some 4) none =
      .ok (ExtendedMonzo.mk1 [1]) ∧
    (ExtendedMonzo.mk1 [1]).toEqualTemperament = .ok (1, 2) ∧
    ((1 : ℚ), (2 : ℚ)) ≠ ((1 / 2 : ℚ), (4 : ℚ)) := by
  refine ⟨?_, ?_, ?_⟩
  · have hlen : (primeLimitLen PRIMES ((4 : ℚ).num.natAbs * (4 : ℚ).den)).getD 0 = 1 := rfl
    have hm : toMonzoAndResidual 4 1 = ([2], 1) := by
      norm_num [toMonzoAndResidual, show PRIMES.take 1 = [2] from rfl, natExponents,
        removePow, removePowAux]
    simp only [ExtendedMonzo.fromEqualTemperament, Option.getD_some, Option.getD_none,
      hlen, hm]
    norm_num [ExtendedMonzo.mk1]
  · have hpf : ExtendedMonzo.powFactors PRIMES [(1 : ℚ)] = some 2 := by
      rw [show PRIMES = 2 :: PRIMES.tail from rfl]
      norm_num [ExtendedMonzo.powFactors, qpow]
    simp only [ExtendedMonzo.toEqualTemperament, ExtendedMonzo.mk1]
    rw [if_neg (show ¬((0 : ℝ) ≠ 0) by simp)]
    rw [if_neg (show ¬((1 : ℚ) ≠ 1) by simp)]
    rw [if_neg (show ¬(([(1 : ℚ)]).length = 0) by simp)]
    have hD : List.foldl (fun acc (c : ℚ) => Nat.lcm acc c.den) 1 [(1 : ℚ)] = 1 := rfl
    rw [hD]
    have hM : List.foldl (fun acc (c : ℚ) => Nat.gcd acc ((c * ((1 : ℕ) : ℚ)).num.natAbs)) 0
        [(1 : ℚ)] = 1 := by
      norm_num
    rw [hM]
    rw [if_neg (show ¬((1 : ℕ) = 0) by simp)]
    have hfrac : (((1 : ℕ) : ℚ) / ((1 : ℕ) : ℚ)) = 1 := by norm_num
    rw [hfrac]
    simp only [ExtendedMonzo.div, ExtendedMonzo.toFraction]
    rw [show ((1 : ℚ))⁻¹ = ((1 : ℤ) : ℚ) by norm_num, qpow_intCast]
    norm_num
    rw [hpf]
    norm_num
  · intro h
    rw [Prod.mk.injEq] at h
    norm_num at h

/-- C3 (amended): for all integers `k` and positive `n`, and every equave
greater than 1 that is fully representable in the vector part (residual 1)
and is not a perfect power (the gcd of its vector exponents is 1),
`fromEqualTemperament(k/n, equave).toEqualTemperament()` returns the fraction
`k/n` in lowest terms together with the same equave; `k = 0` yields the
degenerate pair `(0, 1)`. -/
theorem fromEqualTemperament_roundtrip_amended (k : ℤ) (n N : ℕ) (hn : 0 < n)
    (equave : ℚ) (h1 : 1 < equave)
    (hdef : (primeLimitLen PRIMES (equave.num.natAbs * equave.den)).getD 0 = N)
    (hN : N ≤ PRIMES.length)
    (hres : (toMonzoAndResidual equave N).2 = 1)
    (hgcd : gcdIntList (intExponents equave N) = 1) :
    ∃ m, ExtendedMonzo.fromEqualTemperament ((k : ℚ) / (n : ℚ)) (some equave) none = .ok m ∧
      m.toEqualTemperament =
        .ok (if k = 0 then ((0 : ℚ), (1 : ℚ)) else ((k : ℚ) / (n : ℚ), equave)) := by
  have hq0 : ((k : ℚ) / (n : ℚ) = 0) ↔ k = 0 := by
    rw [div_eq_zero_iff]
    constructor
    · rintro (h | h)
      · exact_mod_cast h
      · exact absurd h (by exact_mod_cast hn.ne')
    · intro h
      exact Or.inl (by exact_mod_cast h)
  refine ⟨ExtendedMonzo.mk1 ((toMonzoAndResidual equave N).1.map
      (fun component => ((k : ℚ) / (n : ℚ)) * component)), ?_, ?_⟩
  · simp only [ExtendedMonzo.fromEqualTemperament, Option.getD_some, Option.getD_none, hdef]
    rw [if_neg (by simp [hres])]
  · rw [edji_roundtrip_core ((k : ℚ) / (n : ℚ)) equave N h1 hN hres hgcd]
    simp only [hq0]

/-- Witness for C3 (amended) at `k = 1`, `n = 2`, `equave = 2`, `N = 1`:
one step of 2edo is the half-octave and converts back to `(1/2, 2)`. -/
theorem fromEqualTemperament_roundtrip_amended_witness :
    (0 < 2) ∧ ((1 : ℚ) < 2) ∧
    (primeLimitLen PRIMES (((2 : ℚ)).num.natAbs * ((2 : ℚ)).den)).getD 0 = 1 ∧
    1 ≤ PRIMES.length ∧
    (toMonzoAndResidual 2 1).2 = 1 ∧
    gcdIntList (intExponents 2 1) = 1 ∧
    ∃ m, ExtendedMonzo.fromEqualTemperament (((1 : ℤ) : ℚ) / (((2 : ℕ)) : ℚ))
        (some 2) none = .ok m ∧
      m.toEqualTemperament =
        .ok (if (1 : ℤ) = 0 then ((0 : ℚ), (1 : ℚ))
          else ((((1 : ℤ)) : ℚ) / (((2 : ℕ)) : ℚ), (2 : ℚ))) :=
  ⟨by decide, by norm_num, rfl, by rw [PRIMES_length]; norm_num,
    by norm_num [toMonzoAndResidual, show PRIMES.take 1 = [2] from rfl, natExponents,
      removePow, removePowAux],
    rfl,
    fromEqualTemperament_roundtrip_amended 1 2 1 (by decide) 2 (by norm_num) rfl
      (by rw [PRIMES_length]; norm_num)
      (by norm_num [toMonzoAndResidual, show PRIMES.take 1 = [2] from rfl, natExponents,
        removePow, removePowAux])
      rfl⟩

/-! Helper lemmas for the FJS major-third scenario (claim C6): certified
rational bounds on the cents table, evaluation of the master search at the
prime 5, and the comma generator's folding. -/

theorem lt_logb_of_pow_lt (b x p q : ℕ) (hb : 1 < b) (hq : 0 < q)
    (h : b ^ p < x ^ q) : (p : ℝ) / (q : ℝ) < Real.logb b x := by
  have hbR : (1 : ℝ) < (b : ℝ) := by exact_mod_cast hb
  have hkey : ((b : ℝ)) ^ p < ((x : ℝ)) ^ q := by exact_mod_cast h
  have hlog := Real.logb_lt_logb hbR (pow_pos (by positivity) p) hkey
  rw [Real.logb_pow, Real.logb_pow, Real.logb_self_eq_one hbR] at hlog
  rw [div_lt_iff₀ (by exact_mod_cast hq)]
  rw [mul_one] at hlog
  linarith [hlog]

theorem logb_lt_of_pow_lt (b x p q : ℕ) (hb : 1 < b) (hx : 0 < x) (hq : 0 < q)
    (h : x ^ q < b ^ p) : Real.logb b x < (p : ℝ) / (q : ℝ) := by
  have hbR : (1 : ℝ) < (b : ℝ) := by exact_mod_cast hb
  have hkey : ((x : ℝ)) ^ q < ((b : ℝ)) ^ p := by exact_mod_cast h
  have hlog := Real.logb_lt_logb hbR (pow_pos (by exact_mod_cast hx) q) hkey
  rw [Real.logb_pow, Real.logb_pow, Real.logb_self_eq_one hbR] at hlog
  rw [lt_div_iff₀ (by exact_mod_cast hq)]
  rw [mul_one] at hlog
  linarith [hlog]

theorem lt_logb_div_of_pow_lt (u v p q : ℕ) (hv : 0 < v) (hq : 0 < q)
    (h : 2 ^ p * v ^ q < u ^ q) :
    (p : ℝ) / (q : ℝ) < Real.logb 2 ((u : ℝ) / (v : ℝ)) := by
  have hu : 0 < u := by
    rcases Nat.eq_zero_or_pos u with h0 | h0
    · subst h0
      rw [Nat.zero_pow (Nat.pos_of_ne_zero (fun hq0 => by omega))] at h
      omega
    · exact h0
  have hvR : (0 : ℝ) < (v : ℝ) := by exact_mod_cast hv
  have huR : (0 : ℝ) < (u : ℝ) := by exact_mod_cast hu
  have hkey : (2 : ℝ) ^ p * (v : ℝ) ^ q < ((u : ℝ)) ^ q := by exact_mod_cast h
  have hlog := Real.logb_lt_logb (b := 2) (by norm_num)
    (by positivity) hkey
  rw [Real.logb_mul (by positivity) (by positivity), Real.logb_pow, Real.logb_pow,
    Real.logb_pow, Real.logb_self_eq_one (by norm_num)] at hlog
  rw [Real.logb_div (ne_of_gt huR) (ne_of_gt hvR), div_lt_iff₀ (by exact_mod_cast hq)]
  rw [mul_one] at hlog
  linarith [hlog]

theorem logb_div_lt_of_pow_lt (u v p q : ℕ) (hv : 0 < v) (hu : 0 < u) (hq : 0 < q)
    (h : u ^ q < 2 ^ p * v ^ q) :
    Real.logb 2 ((u : ℝ) / (v : ℝ)) < (p : ℝ) / (q : ℝ) := by
  have hvR : (0 : ℝ) < (v : ℝ) := by exact_mod_cast hv
  have huR : (0 : ℝ) < (u : ℝ) := by exact_mod_cast hu
  have hkey : ((u : ℝ)) ^ q < (2 : ℝ) ^ p * (v : ℝ) ^ q := by exact_mod_cast h
  have hlog := Real.logb_lt_logb (b := 2) (by norm_num) (by positivity) hkey
  rw [Real.logb_mul (by positivity) (by positivity), Real.logb_pow, Real.logb_pow,
    Real.logb_pow, Real.logb_self_eq_one (by norm_num)] at hlog
  rw [Real.logb_div (ne_of_gt huR) (ne_of_gt hvR), lt_div_iff₀ (by exact_mod_cast hq)]
  rw [mul_one] at hlog
  linarith [hlog]

theorem PRIME_CENTS_one_gt : (1901 : ℝ) < PRIME_CENTS 1 := by
  have h := lt_logb_of_pow_lt 2 3 1901 1200 (by norm_num) (by norm_num) (by norm_num)
  rw [PRIME_CENTS, show PRIMES.getD 1 0 = 3 from rfl, valueToCents]
  push_cast at h ⊢
  rw [div_lt_iff₀ (by norm_num)] at h
  linarith

theorem PRIME_CENTS_one_lt : PRIME_CENTS 1 < 1902 := by
  have h := logb_lt_of_pow_lt 2 3 1902 1200 (by norm_num) (by norm_num) (by norm_num)
    (by norm_num)
  rw [PRIME_CENTS, show PRIMES.getD 1 0 = 3 from rfl, valueToCents]
  push_cast at h ⊢
  rw [lt_div_iff₀ (by norm_num)] at h
  linarith

theorem PRIME_CENTS_two_gt : (2786 : ℝ) < PRIME_CENTS 2 := by
  have h := lt_logb_of_pow_lt 2 5 2786 1200 (by norm_num) (by norm_num) (by norm_num)
  rw [PRIME_CENTS, show PRIMES.getD 2 0 = 5 from rfl, valueToCents]
  push_cast at h ⊢
  rw [div_lt_iff₀ (by norm_num)] at h
  linarith

theorem PRIME_CENTS_two_lt : PRIME_CENTS 2 < 2787 := by
  have h := logb_lt_of_pow_lt 2 5 2787 1200 (by norm_num) (by norm_num) (by norm_num)
    (by norm_num)
  rw [PRIME_CENTS, show PRIMES.getD 2 0 = 5 from rfl, valueToCents]
  push_cast at h ⊢
  rw [lt_div_iff₀ (by norm_num)] at h
  linarith

theorem RADIUS_gt : (54 : ℝ) < RADIUS_OF_TOLERANCE := by
  have h := lt_logb_div_of_pow_lt 65 63 54 1200 (by norm_num) (by norm_num) (by norm_num)
  rw [RADIUS_OF_TOLERANCE, valueToCents]
  push_cast at h
  rw [div_lt_iff₀ (by norm_num)] at h
  linarith

theorem RADIUS_lt : RADIUS_OF_TOLERANCE < 55 := by
  have h := logb_div_lt_of_pow_lt 65 63 55 1200 (by norm_num) (by norm_num) (by norm_num)
    (by norm_num)
  rw [RADIUS_OF_TOLERANCE, valueToCents]
  push_cast at h
  rw [lt_div_iff₀ (by norm_num)] at h
  linarith

theorem mmodR_eq_of (x : ℝ) (k : ℤ) (h1 : 1200 * (k : ℝ) ≤ x)
    (h2 : x < 1200 * ((k : ℝ) + 1)) : mmodR x 1200 = x - 1200 * (k : ℝ) := by
  have hfloor : ⌊x / 1200⌋ = k := by
    rw [Int.floor_eq_iff]
    constructor
    · rw [le_div_iff₀ (by norm_num)]
      linarith
    · rw [div_lt_iff₀ (by norm_num)]
      push_cast
      linarith
  rw [mmodR, hfloor]

theorem master2_miss (c3 c5 R : ℝ) (h3l : 1901 < c3) (h3u : c3 < 1902)
    (h5l : 2786 < c5) (h5u : c5 < 2787) (hRu : R < 55) :
    ∀ m < 7, ¬ distance c5 ((seq m : ℝ) * (c3 - 1200)) < R := by
  intro m hm
  interval_cases m
  · refine not_lt.mpr ?_
    rw [distance, show seq 0 = 0 from by decide]
    rw [mmodR_eq_of _ 2 (by push_cast; linarith) (by push_cast; linarith)]
    rw [abs_of_nonneg (by push_cast; linarith)]
    push_cast
    linarith
  · refine not_lt.mpr ?_
    rw [distance, show seq 1 = 1 from by decide]
    rw [mmodR_eq_of _ 2 (by push_cast; linarith) (by push_cast; linarith)]
    rw [abs_of_nonpos (by push_cast; linarith)]
    push_cast
    linarith
  · refine not_lt.mpr ?_
    rw [distance, show seq 2 = -1 from by decide]
    rw [mmodR_eq_of _ 3 (by push_cast; linarith) (by push_cast; linarith)]
    rw [abs_of_nonpos (by push_cast; linarith)]
    push_cast
    linarith
  · refine not_lt.mpr ?_
    rw [distance, show seq 3 = 2 from by decide]
    rw [mmodR_eq_of _ 1 (by push_cast; linarith) (by push_cast; linarith)]
    rw [abs_of_nonneg (by push_cast; linarith)]
    push_cast
    linarith
  · refine not_lt.mpr ?_
    rw [distance, show seq 4 = -2 from by decide]
    rw [mmodR_eq_of _ 3 (by push_cast; linarith) (by push_cast; linarith)]
    rw [abs_of_nonneg (by push_cast; linarith)]
    push_cast
    linarith
  · refine not_lt.mpr ?_
    rw [distance, show seq 5 = 3 from by decide]
    rw [mmodR_eq_of _ 1 (by push_cast; linarith) (by push_cast; linarith)]
    rw [abs_of_nonpos (by push_cast; linarith)]
    push_cast
    linarith
  · refine not_lt.mpr ?_
    rw [distance, show seq 6 = -3 from by decide]
    rw [mmodR_eq_of _ 4 (by push_cast; linarith) (by push_cast; linarith)]
    rw [abs_of_nonneg (by push_cast; linarith)]
    push_cast
    linarith

theorem master2_hit (c3 c5 R : ℝ) (h3l : 1901 < c3) (h3u : c3 < 1902)
    (h5l : 2786 < c5) (h5u : c5 < 2787) (hRl : 54 < R) :
    distance c5 ((seq 7 : ℝ) * (c3 - 1200)) < R := by
  rw [distance, show seq 7 = 4 from by decide]
  rw [mmodR_eq_of _ 0 (by push_cast; linarith) (by push_cast; linarith)]
  rw [abs_of_nonpos (by push_cast; linarith)]
  push_cast
  linarith

theorem masterAlgorithm_prime2 : masterAlgorithm (PRIME_CENTS 2) = some 4 := by
  have hFIFTH : FIFTH = PRIME_CENTS 1 - 1200 := by rw [FIFTH, PRIME_CENTS_zero]
  have hhit : distance (PRIME_CENTS 2) ((seq 7 : ℝ) * FIFTH) < RADIUS_OF_TOLERANCE := by
    rw [hFIFTH]
    exact master2_hit _ _ _ PRIME_CENTS_one_gt PRIME_CENTS_one_lt PRIME_CENTS_two_gt
      PRIME_CENTS_two_lt RADIUS_gt
  have hmiss : ∀ m < 7,
      ¬ distance (PRIME_CENTS 2) ((seq m : ℝ) * FIFTH) < RADIUS_OF_TOLERANCE := by
    intro m hm
    rw [hFIFTH]
    exact master2_miss _ _ _ PRIME_CENTS_one_gt PRIME_CENTS_one_lt PRIME_CENTS_two_gt
      PRIME_CENTS_two_lt RADIUS_lt m hm
  have hex : ∃ m, distance (PRIME_CENTS 2) ((seq m : ℝ) * FIFTH) < RADIUS_OF_TOLERANCE :=
    ⟨7, hhit⟩
  rw [masterAlgorithm, dif_pos hex]
  have hfind : Nat.find hex = 7 := by
    rw [Nat.find_eq_iff]
    exact ⟨hhit, hmiss⟩
  rw [hfind]
  rfl

theorem foldDown_stop (c : ℝ) (h : ¬ c > 600) : foldDown c = (c, 0) := by
  rw [foldDown, dif_neg h]

theorem foldUp_stop (c : ℝ) (h : ¬ c < -600) : foldUp c = (c, 0) := by
  rw [foldUp, dif_neg h]

theorem foldUp_eight (c : ℝ) (hl : -9622 < c) (hu : c < -9617) :
    foldUp c = (c + 9600, 8) := by
  have h8 : foldUp (c + 9600) = (c + 9600, 0) := foldUp_stop _ (not_lt.mpr (by linarith))
  have h7 : foldUp (c + 8400) = (c + 9600, 1) := by
    rw [foldUp, dif_pos (by linarith), show c + 8400 + 1200 = c + 9600 from by ring, h8]
    simp
  have h6 : foldUp (c + 7200) = (c + 9600, 2) := by
    rw [foldUp, dif_pos (by linarith), show c + 7200 + 1200 = c + 8400 from by ring, h7]
    simp
  have h5 : foldUp (c + 6000) = (c + 9600, 3) := by
    rw [foldUp, dif_pos (by linarith), show c + 6000 + 1200 = c + 7200 from by ring, h6]
    simp
  have h4 : foldUp (c + 4800) = (c + 9600, 4) := by
    rw [foldUp, dif_pos (by linarith), show c + 4800 + 1200 = c + 6000 from by ring, h5]
    simp
  have h3 : foldUp (c + 3600) = (c + 9600, 5) := by
    rw [foldUp, dif_pos (by linarith), show c + 3600 + 1200 = c + 4800 from by ring, h4]
    simp
  have h2 : foldUp (c + 2400) = (c + 9600, 6) := by
    rw [foldUp, dif_pos (by linarith), show c + 2400 + 1200 = c + 3600 from by ring, h3]
    simp
  have h1 : foldUp (c + 1200) = (c + 9600, 7) := by
    rw [foldUp, dif_pos (by linarith), show c + 1200 + 1200 = c + 2400 from by ring, h2]
    simp
  rw [foldUp, dif_pos (by linarith), h1]
  simp

theorem commaFor_two :
    commaFor 2 (((4 : ℤ)) : ℚ) = ExtendedMonzo.mk1 [4, -4, 1] := by
  have h3l := PRIME_CENTS_one_gt
  have h3u := PRIME_CENTS_one_lt
  have h5l := PRIME_CENTS_two_gt
  have h5u := PRIME_CENTS_two_lt
  simp only [commaFor, PRIME_CENTS_zero]
  push_cast
  rw [foldDown_stop _ (not_lt.mpr (by linarith))]
  dsimp only
  rw [foldUp_eight _ (by linarith) (by linarith)]
  dsimp only
  congr 1
  norm_num [List.replicate, List.set]

theorem getFormalComma_two :
    getFormalComma 2 = .ok (ExtendedMonzo.mk1 [4, -4, 1]) := by
  simp only [getFormalComma]
  rw [if_neg (by norm_num), if_pos (by rw [PRIMES_length]; norm_num), masterAlgorithm_prime2]
  dsimp only
  rw [commaFor_two]

theorem fromFraction_one :
    ExtendedMonzo.fromFraction 1 NUMBER_OF_COMPONENTS =
      ExtendedMonzo.mk1 [0, 0, 0, 0, 0, 0, 0, 0, 0] := by
  norm_num [ExtendedMonzo.fromFraction, ExtendedMonzo.mk2, ExtendedMonzo.mk1,
    toMonzoAndResidual, NUMBER_OF_COMPONENTS,
    show PRIMES.take 9 = [2, 3, 5, 7, 11, 13, 17, 19, 23] from rfl,
    natExponents, removePow, removePowAux]

theorem fromParts_M3 : fromParts ['M'] 3 = ExtendedMonzo.mk1 [-6, 4] := by
  have habs : |(3 : ℚ)| - 1 = 2 := by norm_num
  have hqm : qmmod 2 7 = 2 := by norm_num [qmmod]
  have e1 : List.takeWhile (fun x => decide (x = 'A')) ['M'] = [] := rfl
  have e2 : List.takeWhile (fun x => decide (x = 'd')) ['M'] = [] := rfl
  simp only [fromParts, habs, hqm]
  norm_num [qualityPrefixStep, PYTH_VECTORS, List.getD, e1, e2,
    show Int.toNat 2 = 2 from rfl]
  split
  · next h => simp at h
  · next h => simp at h
  · norm_num

theorem getFormalComma_zero :
    getFormalComma 0 = .ok (ExtendedMonzo.mk1 [0, 0, 0, 0, 0, 0, 0, 0, 0]) := by
  rw [getFormalComma, if_pos (by norm_num), fromFraction_one]

theorem getFormalComma_one :
    getFormalComma 1 = .ok (ExtendedMonzo.mk1 [0, 0, 0, 0, 0, 0, 0, 0, 0]) := by
  rw [getFormalComma, if_pos (by norm_num), fromFraction_one]

theorem zero9_mul_zero :
    (ExtendedMonzo.mk1 [0, 0, 0, 0, 0, 0, 0, 0, 0]).mul (((0 : ℤ)) : ℚ) =
      ExtendedMonzo.mk1 [0, 0, 0, 0, 0, 0, 0, 0, 0] := by
  simp only [ExtendedMonzo.mul, ExtendedMonzo.mk1, qpow_one_left]
  norm_num

theorem comma_mul_one :
    (ExtendedMonzo.mk1 [4, -4, 1]).mul (((1 : ℤ)) : ℚ) =
      ExtendedMonzo.mk1 [4, -4, 1] := by
  simp only [ExtendedMonzo.mul, ExtendedMonzo.mk1, qpow_one_left]
  norm_num

theorem skeleton_add_zero :
    (ExtendedMonzo.mk1 [-6, 4]).add (ExtendedMonzo.mk1 [0, 0, 0, 0, 0, 0, 0, 0, 0]) =
      ExtendedMonzo.mk1 [-6, 4, 0, 0, 0, 0, 0, 0, 0] := by
  simp only [ExtendedMonzo.add, ExtendedMonzo.mk1]
  norm_num

theorem skeleton9_add_zero :
    (ExtendedMonzo.mk1 [-6, 4, 0, 0, 0, 0, 0, 0, 0]).add
        (ExtendedMonzo.mk1 [0, 0, 0, 0, 0, 0, 0, 0, 0]) =
      ExtendedMonzo.mk1 [-6, 4, 0, 0, 0, 0, 0, 0, 0] := by
  simp only [ExtendedMonzo.add, ExtendedMonzo.mk1]
  norm_num

theorem skeleton_add_comma :
    (ExtendedMonzo.mk1 [-6, 4, 0, 0, 0, 0, 0, 0, 0]).add (ExtendedMonzo.mk1 [4, -4, 1]) =
      ExtendedMonzo.mk1 [-2, 0, 1, 0, 0, 0, 0, 0, 0] := by
  simp only [ExtendedMonzo.add, ExtendedMonzo.mk1]
  norm_num

theorem applyCommas_M3_5 :
    applyCommas getFormalComma true (ExtendedMonzo.mk1 [-6, 4]) [0, 0, 1] =
      .ok (ExtendedMonzo.mk1 [-2, 0, 1, 0, 0, 0, 0, 0, 0]) := by
  simp only [applyCommas,
    show List.enum [(0 : ℤ), 0, 1] = [(0, 0), (1, 0), (2, 1)] from rfl,
    List.foldlM_cons, List.foldlM_nil, bind, Except.bind, pure, Except.pure,
    getFormalComma_zero, getFormalComma_one,
    getFormalComma_two, zero9_mul_zero, comma_mul_one, skeleton_add_zero,
    skeleton9_add_zero, skeleton_add_comma, if_true]

theorem toJustIntonation_M3_5 :
    toJustIntonation ['M'] 3 [5] [] =
      .ok (ExtendedMonzo.mk1 [-2, 0, 1, 0, 0, 0, 0, 0, 0]) := by
  simp only [toJustIntonation, fromParts_M3]
  rw [if_neg (by norm_num [ExtendedMonzo.mk1])]
  simp only [applyScripts, List.foldlM_cons, List.foldlM_nil,
    bind, Except.bind, pure, Except.pure,
    show toMonzoList PRIMES 5 = some [0, 0, 1] from rfl, applyCommas_M3_5]

theorem powFactors_take (ps : List ℕ) (v : List ℚ) :
    ExtendedMonzo.powFactors (ps.take v.length) v = ExtendedMonzo.powFactors ps v := by
  induction v generalizing ps with
  | nil => simp [ExtendedMonzo.powFactors]
  | cons c cs ih =>
    cases ps with
    | nil => simp [ExtendedMonzo.powFactors]
    | cons p rest =>
      simp only [List.length_cons, List.take_succ_cons, ExtendedMonzo.powFactors, ih]

theorem toFraction_M3_5 :
    (ExtendedMonzo.mk1 [-2, 0, 1, 0, 0, 0, 0, 0, 0]).toFraction = .ok (5 / 4) := by
  have hp : ExtendedMonzo.powFactors PRIMES [-2, 0, 1, 0, 0, 0, 0, 0, 0] = some (5 / 4) := by
    rw [← powFactors_take PRIMES [-2, 0, 1, 0, 0, 0, 0, 0, 0]]
    rw [show PRIMES.take ([(-2 : ℚ), 0, 1, 0, 0, 0, 0, 0, 0]).length =
      [2, 3, 5, 7, 11, 13, 17, 19, 23] from rfl]
    norm_num [ExtendedMonzo.powFactors, qpow]
  simp only [ExtendedMonzo.toFraction, ExtendedMonzo.mk1]
  rw [if_neg (show ¬((0 : ℝ) ≠ 0) by simp), hp]
  norm_num

/-- C6: evaluating the parsed AST of the input `M3^5` (FJS major third with
the 5-comma superscript) in any context yields a quantity in the `pitch`
domain whose value converts by `toFraction` to exactly 5/4: the Pythagorean
skeleton 81/64 (monzo `[-6, 4]`) times the derived formal comma 80/81 for
prime 5 (monzo `[4, -4, 1]`, found by the master search at fifth count 4)
is 5/4 (monzo `[-2, 0, 1]`). -/
theorem fjs_major_third (ctx : Ctx) :
    ∃ m : ExtendedMonzo,
      evaluateExpression (.fjs ['M'] 3 [5] []) ctx = .ok ⟨m, .pitch, 1⟩ ∧
      m.toFraction = .ok (5 / 4) := by
  refine ⟨ExtendedMonzo.mk1 [-2, 0, 1, 0, 0, 0, 0, 0, 0], ?_, toFraction_M3_5⟩
  simp only [evaluateExpression, toJustIntonation_M3_5, bind, Except.bind,
    Quantity.mk']
  norm_num
  intro h
  exact Domain.noConfusion h

/-! Helper lemmas for the termination of the formal comma search (claim C9):
the fifth is irrational with respect to the octave, so fifth stacks are dense
modulo 1200 and the master search always finds a hit. -/

theorem logb23_irrational : Irrational (Real.logb 2 3) := by
  rintro ⟨q, hq⟩
  have hpos : (0 : ℝ) < Real.logb 2 3 := Real.logb_pos (by norm_num) (by norm_num)
  have hqpos : 0 < q := by
    have h0 : (0 : ℝ) < (q : ℝ) := by rw [hq]; exact hpos
    exact_mod_cast h0
  have hexp : (2 : ℝ) ^ (q : ℝ) = 3 := by
    rw [hq]
    exact Real.rpow_logb (by norm_num) (by norm_num) (by norm_num)
  have hnum : 0 < q.num := Rat.num_pos.mpr hqpos
  have hqd : ((q : ℝ)) * (q.den : ℝ) = (q.num.toNat : ℝ) := by
    have h1 : q * (q.den : ℚ) = (q.num : ℚ) := mul_den_eq_num q
    have h1R : ((q : ℝ)) * (q.den : ℝ) = ((q.num : ℤ) : ℝ) := by exact_mod_cast h1
    rw [h1R, show ((q.num.toNat : ℕ) : ℝ) = ((q.num.toNat : ℤ) : ℝ) from by push_cast; ring,
      Int.toNat_of_nonneg (le_of_lt hnum)]
  have hd : (3 : ℝ) ^ (q.den : ℕ) = (2 : ℝ) ^ (q.num.toNat : ℕ) := by
    rw [← hexp, ← Real.rpow_natCast ((2 : ℝ) ^ (q : ℝ)) q.den,
      ← Real.rpow_mul (by norm_num), hqd, Real.rpow_natCast]
  have h23 : (3 : ℕ) ^ q.den = 2 ^ q.num.toNat := by exact_mod_cast hd
  have hnn : q.num.toNat ≠ 0 := by omega
  have h2dvd : (2 : ℕ) ∣ 3 ^ q.den := by
    rw [h23]
    exact dvd_pow_self 2 hnn
  have := Nat.Prime.dvd_of_dvd_pow Nat.prime_two h2dvd
  norm_num at this

theorem seq_surjective (k : ℤ) : ∃ m : ℕ, seq m = k := by
  rcases le_or_lt k 0 with hk | hk
  · refine ⟨(2 * (-k)).toNat, ?_⟩
    have hm : (((2 * (-k)).toNat : ℕ) : ℤ) = 2 * (-k) := Int.toNat_of_nonneg (by linarith)
    rw [seq, if_neg (by omega)]
    omega
  · refine ⟨(2 * k - 1).toNat, ?_⟩
    have hm : (((2 * k - 1).toNat : ℕ) : ℤ) = 2 * k - 1 := Int.toNat_of_nonneg (by linarith)
    rw [seq, if_pos (by omega)]
    omega

theorem distance_lt_of_near (t b r : ℝ) (hr0 : 0 < r) (hr6 : r ≤ 600) (n : ℤ)
    (h : |t - b - 1200 * (n : ℝ)| < r) : distance t b < r := by
  have habs := abs_lt.mp h
  have h1 : 1200 * (n : ℝ) ≤ t - b + 600 := by linarith [habs.1]
  have h2 : t - b + 600 < 1200 * ((n : ℝ) + 1) := by linarith [habs.2]
  rw [distance, mmodR_eq_of _ n h1 h2, abs_lt]
  constructor <;> linarith [habs.1, habs.2]

theorem fifth_octave_dense :
    Dense ((AddSubgroup.closure {FIFTH, (1200 : ℝ)} : AddSubgroup ℝ) : Set ℝ) := by
  rcases AddSubgroup.dense_or_cyclic (AddSubgroup.closure {FIFTH, (1200 : ℝ)}) with hd | ⟨a, ha⟩
  · exact hd
  · exfalso
    have hF : FIFTH ∈ AddSubgroup.closure {FIFTH, (1200 : ℝ)} :=
      AddSubgroup.subset_closure (by simp)
    have hT : (1200 : ℝ) ∈ AddSubgroup.closure {FIFTH, (1200 : ℝ)} :=
      AddSubgroup.subset_closure (by simp)
    rw [ha, AddSubgroup.mem_closure_singleton] at hF hT
    obtain ⟨mF, hmF⟩ := hF
    obtain ⟨mT, hmT⟩ := hT
    have hsm : (mF : ℝ) * a = FIFTH := by rw [← hmF, zsmul_eq_mul]
    have htm : (mT : ℝ) * a = 1200 := by rw [← hmT, zsmul_eq_mul]
    have hmT0 : mT ≠ 0 := by
      intro h0
      rw [h0] at htm
      norm_num at htm
    have hmT0R : ((mT : ℝ)) ≠ 0 := by exact_mod_cast hmT0
    have key : FIFTH * (mT : ℝ) = 1200 * (mF : ℝ) := by
      rw [← hsm, ← htm]
      ring
    have hFdef : FIFTH = 1200 * Real.logb 2 3 - 1200 := by
      rw [FIFTH, PRIME_CENTS_zero, PRIME_CENTS, show PRIMES.getD 1 0 = 3 from rfl,
        valueToCents]
      push_cast
      ring
    rw [hFdef] at key
    have key2 : Real.logb 2 3 * (mT : ℝ) = (mF : ℝ) + (mT : ℝ) := by
      linear_combination key / 1200
    apply logb23_irrational
    refine ⟨(mF : ℚ) / (mT : ℚ) + 1, ?_⟩
    push_cast
    field_simp
    linarith [key2]

theorem masterAlgorithm_total (t : ℝ) : ∃ k, masterAlgorithm t = some k := by
  have hR0 : (0 : ℝ) < RADIUS_OF_TOLERANCE := lt_trans (by norm_num) RADIUS_gt
  have hR6 : RADIUS_OF_TOLERANCE ≤ 600 := le_of_lt (lt_trans RADIUS_lt (by norm_num))
  obtain ⟨g, hgmem, hgclose⟩ :=
    Metric.mem_closure_iff.mp (fifth_octave_dense t) _ hR0
  obtain ⟨m, n, hmn⟩ := AddSubgroup.mem_closure_pair.mp hgmem
  obtain ⟨j, hj⟩ := seq_surjective m
  have hdist : distance t ((seq j : ℝ) * FIFTH) < RADIUS_OF_TOLERANCE := by
    rw [hj]
    apply distance_lt_of_near t ((m : ℝ) * FIFTH) _ hR0 hR6 n
    have hg : (m : ℝ) * FIFTH + (n : ℝ) * 1200 = g := by
      rw [← hmn, zsmul_eq_mul, zsmul_eq_mul]
    rw [show t - (m : ℝ) * FIFTH - 1200 * (n : ℝ) = t - g from by rw [← hg]; ring,
      ← Real.dist_eq]
    exact hgclose
  have hex : ∃ mm, distance t ((seq mm : ℝ) * FIFTH) < RADIUS_OF_TOLERANCE := ⟨j, hdist⟩
  exact ⟨seq (Nat.find hex), by rw [masterAlgorithm, dif_pos hex]⟩

/-- C9: the formal comma search terminates for every target — the fifth is
irrational against the octave, so stacks of fifths are dense modulo 1200 and
the unbounded loop of `masterAlgorithm` always reaches the radius of
tolerance; consequently `getFormalComma` succeeds at every index of the
prime table. -/
theorem formal_comma_search_terminates :
    (∀ t : ℝ, ∃ k, masterAlgorithm t = some k) ∧
    (∀ i, i < PRIMES.length → ∃ m, getFormalComma i = .ok m) := by
  refine ⟨masterAlgorithm_total, ?_⟩
  intro i hi
  by_cases h2 : i < 2
  · exact ⟨_, by rw [getFormalComma, if_pos h2]⟩
  · obtain ⟨k, hk⟩ := masterAlgorithm_total (PRIME_CENTS i)
    refine ⟨commaFor i ((k : ℤ) : ℚ), ?_⟩
    rw [getFormalComma, if_neg h2, if_pos hi, hk]

/-- Witness for C9 at index 2 (the prime 5). -/
theorem formal_comma_search_terminates_witness :
    2 < PRIMES.length ∧ ∃ m, getFormalComma 2 = .ok m :=
  ⟨by rw [PRIMES_length]; norm_num,
    formal_comma_search_terminates.2 2 (by rw [PRIMES_length]; norm_num)⟩

end SW
